import Mathlib

/-!
# Verification of the komle flattening/pivoting utilities

A shallow embedding of `komle/utils.py`: the log tabular decoder
(`logdata_dict`), the tree flattener (`obj_dict`), the frame builder
(`plural_dict`) and the nested-to-plain converter (`to_plain`), together
with proofs about them.

Python values are modelled by the inductive `Py`; Python dictionaries by
association lists with insertion-order semantics (`dictInsert` keeps the
position of an existing key, as CPython dicts and `OrderedDict` do);
Python exceptions by `PyError` through the `Except` monad.  Python floats
are modelled as exact rationals produced by a decimal parser, which is
exact on the decimal literals appearing here.
-/

set_option maxHeartbeats 1000000

namespace Komle

/-- Python exceptions raised by the embedded code. -/
inductive PyError where
  | keyError (key : String)
  | valueError (msg : String)
  | typeError (msg : String)
  | indexError
  deriving DecidableEq, Repr

/-- Plain Python values flowing through the utilities: `None`, scalars,
lists and (insertion-ordered) dicts. -/
inductive Py where
  | none
  | str (s : String)
  | int (n : Int)
  | float (q : Rat)
  | timestamp (s : String)
  | bytes (s : String)
  | list (xs : List Py)
  | dict (xs : List (String × Py))
  deriving Repr

/-! ## Python dict semantics on association lists -/

/-- `k in d` for a Python dict modelled as an association list. -/
def containsKey (d : List (String × β)) (k : String) : Bool :=
  d.any (fun p => p.1 == k)

/-- `d[k]`, as an `Option` (Python raises `KeyError` when absent). -/
def dictGet? (d : List (String × β)) (k : String) : Option β :=
  (d.find? (fun p => p.1 == k)).map Prod.snd

/-- `d[k] = v` on a Python dict: an existing key keeps its position and is
given the new value, a new key is appended at the end. -/
def dictInsert (d : List (String × β)) (k : String) (v : β) : List (String × β) :=
  if containsKey d k then d.map (fun p => if p.1 = k then (k, v) else p)
  else d ++ [(k, v)]

/-- Run a sequence of `d[k] = v` assignments. -/
def foldInserts (d : List (String × β)) (ps : List (String × β)) : List (String × β) :=
  ps.foldl (fun d p => dictInsert d p.1 p.2) d

/-! ## The log tabular decoder (`logdata_dict`) -/

/-- One entry of `log.logCurveInfo`: the curve's mnemonic (`mnemonic.value()`)
and its declared `typeLogData` name. -/
structure CurveInfo where
  mnemonic : String
  typeLogData : String
  deriving DecidableEq, Repr

/-- One entry of `log.logData`: the delimited `mnemonicList` and the raw
delimited data rows. -/
structure LogData where
  mnemonicList : String
  data : List String
  deriving DecidableEq, Repr

/-- The parts of a witsml `obj_log` read by `logdata_dict`. -/
structure Log where
  logCurveInfo : List CurveInfo
  dataDelimiter : Option String
  logData : List LogData
  deriving Repr

/-- Python `str.split(sep)` for a non-empty separator, on character lists:
splits at every non-overlapping occurrence of `sep`, keeping empty fields.
`skip` counts separator characters already consumed by a match, `cur` holds
the current field reversed. -/
def splitGo (sep : List Char) (skip : Nat) (cur : List Char) :
    List Char → List (List Char)
  | [] => [cur.reverse]
  | c :: cs =>
      match skip with
      | n + 1 => splitGo sep n cur cs
      | 0 =>
          if sep.isPrefixOf (c :: cs) then
            cur.reverse :: splitGo sep (sep.length - 1) [] cs
          else
            splitGo sep 0 (c :: cur) cs

/-- Python `s.split(sep)` (non-empty `sep`; `komle` only ever splits on a
non-empty data delimiter). -/
def pySplit (s sep : String) : List String :=
  (splitGo sep.toList 0 [] s.toList).map List.asString

/-- Digits to the natural number they denote. -/
def digitsVal (ds : List Char) : Nat :=
  ds.foldl (fun n c => 10 * n + (c.toNat - 48)) 0

/-- Decimal-literal parser modelling Python `float(s)` on plain decimal
strings: optional sign, then digits with at most one point and at least one
digit.  (Exponents, `inf`/`nan` and surrounding whitespace, which Python
also accepts, do not occur in the data considered here.) -/
def parseDecimal? (s : String) : Option Rat :=
  let cs := s.toList
  let (neg, cs) :=
    match cs with
    | '-' :: rest => (true, rest)
    | '+' :: rest => (false, rest)
    | cs => (false, cs)
  let intPart := cs.takeWhile Char.isDigit
  let rest := cs.dropWhile Char.isDigit
  let parts : Option (List Char × List Char) :=
    match rest with
    | [] => if intPart.isEmpty then Option.none else some (intPart, [])
    | '.' :: rest' =>
        let fracPart := rest'.takeWhile Char.isDigit
        let rest'' := rest'.dropWhile Char.isDigit
        if rest''.isEmpty then
          if intPart.isEmpty && fracPart.isEmpty then Option.none
          else some (intPart, fracPart)
        else Option.none
    | _ => Option.none
  parts.map (fun p =>
    let n : Int := digitsVal (p.1 ++ p.2)
    mkRat (if neg then -n else n) (10 ^ p.2.length))

/-- Python `int(s)`: optional sign then at least one digit. -/
def parseInt? (s : String) : Option Int :=
  let cs := s.toList
  let (neg, cs) :=
    match cs with
    | '-' :: rest => (true, rest)
    | '+' :: rest => (false, rest)
    | cs => (false, cs)
  if cs ≠ [] && cs.all Char.isDigit then
    some (if neg then -(digitsVal cs : Int) else (digitsVal cs : Int))
  else Option.none

/-- A value-casting function from the primitive-type table: Python calls
`value_cast(point_str)`, which may raise. -/
abbrev CastFn : Type := String → Except PyError Py

/-- `float(s)`, raising `ValueError` on a malformed literal. -/
def pyFloat : CastFn := fun s =>
  match parseDecimal? s with
  | some q => .ok (.float q)
  | Option.none => .error (.valueError ("could not convert string to float: '" ++ s ++ "'"))

/-- `int(s)`, raising `ValueError` on a malformed literal. -/
def pyInt : CastFn := fun s =>
  match parseInt? s with
  | some n => .ok (.int n)
  | Option.none => .error (.valueError ("invalid literal for int() with base 10: '" ++ s ++ "'"))

/-- `str(s)`: the identity on the split field. -/
def pyStr : CastFn := fun s => .ok (.str s)

/-- Python 3 `bytes(s)` on a `str` raises `TypeError`. -/
def pyBytes : CastFn := fun _ =>
  .error (.typeError "string argument without an encoding")

/-- The `timestamp` binding constructor (external to this repository);
modelled as wrapping the raw text. -/
def pyTimestamp : CastFn := fun s => .ok (.timestamp s)

/-- The fixed `LOG_PRIM_TYPES` table.  A Python dict lookup
`LOG_PRIM_TYPES[t]` raises `KeyError` when `t` is not one of these names,
which the `Option` result records. -/
def LOG_PRIM_TYPES (t : String) : Option CastFn :=
  if t = "byte" then some pyBytes
  else if t = "date time" then some pyTimestamp
  else if t = "double" then some pyFloat
  else if t = "float" then some pyFloat
  else if t = "int" then some pyInt
  else if t = "long" then some pyInt
  else if t = "short" then some pyInt
  else if t = "string" then some pyStr
  else if t = "string40" then some pyStr
  else if t = "string16" then some pyStr
  else if t = "unknown" then some pyStr
  else Option.none

/-- The dict comprehension
`{c.mnemonic.value(): LOG_PRIM_TYPES[c.typeLogData] for c in log.logCurveInfo}`:
built in curve order, raising `KeyError` at the first unrecognized type. -/
def buildCastMap (cs : List CurveInfo) : Except PyError (List (String × CastFn)) :=
  cs.foldlM (fun d c =>
    match LOG_PRIM_TYPES c.typeLogData with
    | some fn => .ok (dictInsert d c.mnemonic fn)
    | Option.none => .error (.keyError c.typeLogData)) []

/-- One column accumulator of `data_list`: `(mnem, mnem_cast_map[mnem], [])`
with the growing list of decoded values. -/
structure ColAcc where
  mnem : String
  cast : CastFn
  values : List Py

/-- The inner loop of `logdata_dict` over one data row: walk the split
fields positionally against `data_list`.  A non-empty field is cast (the
cast may raise) and appended; an empty field appends `None` exactly when
`fill_missing`; a field position beyond `data_list` raises `IndexError`
(except that an empty field with `fill_missing` off touches no column at
all and is skipped). -/
def procFields (fill : Bool) : List String → List ColAcc → Except PyError (List ColAcc)
  | [], cols => .ok cols
  | f :: fs, [] =>
      if f = "" ∧ fill = false then procFields fill fs []
      else .error .indexError
  | f :: fs, c :: cs =>
      if f = "" then
        if fill then do
          let rest ← procFields fill fs cs
          .ok ({ c with values := c.values ++ [Py.none] } :: rest)
        else do
          let rest ← procFields fill fs cs
          .ok (c :: rest)
      else do
        let v ← c.cast f
        let rest ← procFields fill fs cs
        .ok ({ c with values := c.values ++ [v] } :: rest)

/-- `logdata_dict(log, fill_missing)`: convert `logData` from a witsml log
to a dict frame keyed by mnemonic. -/
def logdata_dict (log : Log) (fill_missing : Bool := true) :
    Except PyError (List (String × List Py)) := do
  let castMap ← buildCastMap log.logCurveInfo
  let delimiter := log.dataDelimiter.getD ","
  let ld0 ← match log.logData with
            | [] => .error .indexError
            | x :: _ => .ok x
  let cols ← (pySplit ld0.mnemonicList delimiter).mapM
      (fun m => match dictGet? castMap m with
                | some fn => .ok (ColAcc.mk m fn [])
                | Option.none => .error (.keyError m))
  let cols ← ld0.data.foldlM
      (fun cs row => procFields fill_missing (pySplit row delimiter) cs) cols
  .ok (foldInserts [] (cols.map (fun c => (c.mnem, c.values))))

/-! ## The bound-object model

A pyxb binding instance is modelled by `Node`:

* `simple attrs v` — a `complexTypeDefinition` with `_CT_EMPTY`/`_CT_SIMPLE`
  content: an attribute map and a scalar `value()`;
* `complex attrs content` — a structured `complexTypeDefinition`:
  an attribute map and `orderedContent()`, the latter a list of element
  occurrences `(elementDeclaration id, bound value)` in document order.
  In pyxb every occurrence of one element name resolves through
  `_ElementMap` to the same bound value, so trees representing pyxb
  objects carry equal nodes at equal names within one `content`; the model
  stores each occurrence's value directly and looks occurrences up by name
  where the Python code does (`getattr` / `_ElementMap[...].value`);
* `log attrs lg content` — an `obj_log`: a structured node whose
  log-specific children (`logCurveInfo`, `dataDelimiter`, `logData`) are
  mirrored in `lg` for the log tabular decoder;
* `plural items` — a `pyxb.binding.content._PluralBinding` (or plain
  list): an ordered sequence of members.  Plural bindings have no
  `_AttributeMap`.
-/

inductive Node where
  | simple (attrs : List (String × Py)) (value : Py)
  | complex (attrs : List (String × Py)) (content : List (String × Node))
  | log (attrs : List (String × Py)) (lg : Log) (content : List (String × Node))
  | plural (items : List Node)

/-- `hasattr(obj, '_AttributeMap')`: complex-type binding instances expose
their attribute map, plural bindings do not. -/
def attrsOf? : Node → Option (List (String × Py))
  | .simple attrs _ => some attrs
  | .complex attrs _ => some attrs
  | .log attrs _ _ => some attrs
  | .plural _ => Option.none

/-- `delimiter.join(filter(None, [base, name]))`: empty components are
dropped before joining. -/
def pyJoin (dl base name : String) : String :=
  if base = "" then name else if name = "" then base else base ++ dl ++ name

/-- Python `enumerate(xs, start)` shifted by an arbitrary integer start. -/
def enumFrom (i : Int) : List α → List (Int × α)
  | [] => []
  | a :: as => (i, a) :: enumFrom (i + 1) as

/-! ## The tree flattener (`obj_dict`) -/

/-- The attribute entries `path → attr value` that one node contributes,
as ordered pairs: key `delimiter.join(filter(None, [base, prefix+id]))`. -/
def attrPairs (pa dl base : String) (attrs : List (String × Py)) :
    List (String × Py) :=
  attrs.map (fun p => (pyJoin dl base (pa ++ p.1), p.2))

/-- Total size of the nodes on an `obj_dict` work list, the termination
measure of the work-list loop. -/
noncomputable def stackSize (st : List (String × Node)) : Nat :=
  (st.map (fun p => sizeOf p.2)).sum

theorem stackSize_nil : stackSize [] = 0 := rfl

theorem stackSize_cons (b : String) (n : Node) (st : List (String × Node)) :
    stackSize ((b, n) :: st) = sizeOf n + stackSize st := by
  simp [stackSize]

theorem stackSize_append (s t : List (String × Node)) :
    stackSize (s ++ t) = stackSize s + stackSize t := by
  simp [stackSize]

theorem stackSize_reverse (s : List (String × Node)) :
    stackSize s.reverse = stackSize s := by
  simp [stackSize, List.map_reverse, List.sum_reverse]

theorem stackSize_enumFrom (f : Int × Node → String) (si : Int) (items : List Node) :
    stackSize ((enumFrom si items).map (fun p => (f p, p.2)))
      = (items.map (fun n => sizeOf n)).sum := by
  induction items generalizing si with
  | nil => simp [enumFrom, stackSize]
  | cons n ns ih =>
      simp only [enumFrom, List.map_cons, stackSize_cons, ih, List.sum_cons]

theorem stackSize_contentMap (g : String × Node → String)
    (content : List (String × Node)) :
    stackSize (content.map (fun p => (g p, p.2)))
      = (content.map (fun p => sizeOf p.2)).sum := by
  simp only [stackSize, List.map_map]
  rfl

theorem nodes_sum_lt_sizeOf (items : List Node) :
    (items.map (fun n => sizeOf n)).sum < sizeOf items := by
  induction items with
  | nil => simp
  | cons n ns ih => simp_all; omega

theorem content_sum_lt_sizeOf (content : List (String × Node)) :
    (content.map (fun p => sizeOf p.2)).sum < sizeOf content := by
  induction content with
  | nil => simp
  | cons p ps ih =>
      cases p
      simp_all [Prod.mk.sizeOf_spec]
      omega

theorem nodes_sum_lt_plural (items : List Node) :
    (items.map (fun n => sizeOf n)).sum < sizeOf (Node.plural items) := by
  have := nodes_sum_lt_sizeOf items
  simp only [Node.plural.sizeOf_spec]
  omega

theorem content_sum_lt_complex (attrs : List (String × Py))
    (content : List (String × Node)) :
    (content.map (fun p => sizeOf p.2)).sum < sizeOf (Node.complex attrs content) := by
  have := content_sum_lt_sizeOf content
  simp only [Node.complex.sizeOf_spec]
  omega

theorem content_sum_lt_log (attrs : List (String × Py)) (lg : Log)
    (content : List (String × Node)) :
    (content.map (fun p => sizeOf p.2)).sum < sizeOf (Node.log attrs lg content) := by
  have := content_sum_lt_sizeOf content
  simp only [Node.log.sizeOf_spec]
  omega

/-- The work-list loop of `obj_dict`: pop `(base_name, obj)` from the end
of `obj_list` (the head of this stack); a plural binding pushes its
members as `base[start_idx+i]` and contributes nothing itself; otherwise,
with `include_attr`, the node's attribute entries are written first; a
structured node pushes its element occurrences (popped in reverse document
order, last occurrence first); any other node writes `base → value`. -/
def obj_dict_go (ia : Bool) (pa dl : String) (si : Int) :
    List (String × Node) → List (String × Py) → List (String × Py)
  | [], acc => acc
  | (base, .plural items) :: rest, acc =>
      obj_dict_go ia pa dl si
        (((enumFrom si items).map
            (fun p => (base ++ "[" ++ toString p.1 ++ "]", p.2))).reverse ++ rest) acc
  | (base, .simple attrs v) :: rest, acc =>
      obj_dict_go ia pa dl si rest
        (dictInsert (if ia then foldInserts acc (attrPairs pa dl base attrs) else acc) base v)
  | (base, .complex attrs content) :: rest, acc =>
      obj_dict_go ia pa dl si
        ((content.map (fun p => (pyJoin dl base p.1, p.2))).reverse ++ rest)
        (if ia then foldInserts acc (attrPairs pa dl base attrs) else acc)
  | (base, .log attrs lgx content) :: rest, acc =>
      obj_dict_go ia pa dl si
        ((content.map (fun p => (pyJoin dl base p.1, p.2))).reverse ++ rest)
        (if ia then foldInserts acc (attrPairs pa dl base attrs) else acc)
  termination_by st _ => stackSize st
  decreasing_by
  · simp only [stackSize_append, stackSize_reverse, stackSize_enumFrom, stackSize_cons]
    have h := nodes_sum_lt_plural items
    omega
  · simp only [stackSize_cons]
    have : 0 < sizeOf (Node.simple attrs v) := by simp only [Node.simple.sizeOf_spec]; omega
    omega
  · simp only [stackSize_append, stackSize_reverse, stackSize_contentMap, stackSize_cons]
    have h := content_sum_lt_complex attrs content
    omega
  · simp only [stackSize_append, stackSize_reverse, stackSize_contentMap, stackSize_cons]
    have h := content_sum_lt_log attrs lgx content
    omega

/-- `obj_dict(obj, include_attr, prefix_attr, delimiter, start_idx)`:
flatten a witsml object into a flat (ordered) dict. -/
def obj_dict (obj : Node) (include_attr : Bool := false) (prefix_attr : String := "")
    (delimiter : String := ".") (start_idx : Int := 0) : List (String × Py) :=
  obj_dict_go include_attr prefix_attr delimiter start_idx [("", obj)] []

/-- The ordered sequence of `flatten_witsml[path] = value` assignments the
work-list loop performs (duplicates included); the loop's result is these
assignments folded into an empty dict. -/
def emits (ia : Bool) (pa dl : String) (si : Int) :
    List (String × Node) → List (String × Py)
  | [] => []
  | (base, .plural items) :: rest =>
      emits ia pa dl si
        (((enumFrom si items).map
            (fun p => (base ++ "[" ++ toString p.1 ++ "]", p.2))).reverse ++ rest)
  | (base, .simple attrs v) :: rest =>
      (if ia then attrPairs pa dl base attrs else []) ++ [(base, v)]
        ++ emits ia pa dl si rest
  | (base, .complex attrs content) :: rest =>
      (if ia then attrPairs pa dl base attrs else [])
        ++ emits ia pa dl si ((content.map (fun p => (pyJoin dl base p.1, p.2))).reverse ++ rest)
  | (base, .log attrs lgx content) :: rest =>
      (if ia then attrPairs pa dl base attrs else [])
        ++ emits ia pa dl si ((content.map (fun p => (pyJoin dl base p.1, p.2))).reverse ++ rest)
  termination_by st => stackSize st
  decreasing_by
  · simp only [stackSize_append, stackSize_reverse, stackSize_enumFrom, stackSize_cons]
    have h := nodes_sum_lt_plural items
    omega
  · simp only [stackSize_cons]
    have : 0 < sizeOf (Node.simple attrs v) := by simp only [Node.simple.sizeOf_spec]; omega
    omega
  · simp only [stackSize_append, stackSize_reverse, stackSize_contentMap, stackSize_cons]
    have h := content_sum_lt_complex attrs content
    omega
  · simp only [stackSize_append, stackSize_reverse, stackSize_contentMap, stackSize_cons]
    have h := content_sum_lt_log attrs lgx content
    omega

/-! ## The frame builder (`plural_dict`) -/

/-- In-place list element assignment `l[i] = v` (indices in range here). -/
def listSet : List α → Nat → α → List α
  | [], _, _ => []
  | _ :: xs, 0, v => v :: xs
  | x :: xs, n + 1, v => x :: listSet xs n v

/-- `frame_dict[key][idx] = v`. -/
def dictSetAt (fd : List (String × List Py)) (k : String) (idx : Nat) (v : Py) :
    List (String × List Py) :=
  fd.map (fun q => if q.1 = k then (q.1, listSet q.2 idx v) else q)

/-- `for key in fw: if key in frame_dict: frame_dict[key][idx] = fw[key]`
(iterating the dict gives each key with its value, keys being unique). -/
def setRow (fd : List (String × List Py)) (idx : Nat) (fw : List (String × Py)) :
    List (String × List Py) :=
  fw.foldl (fun fd p => if containsKey fd p.1 then dictSetAt fd p.1 idx p.2 else fd) fd

/-- `for idx, fw in enumerate(frame_list): ...` of the fill-missing branch. -/
def fillLoop : List (String × List Py) → Nat → List (List (String × Py)) →
    List (String × List Py)
  | fd, _, [] => fd
  | fd, idx, fw :: rest => fillLoop (setRow fd idx fw) (idx + 1) rest

/-- `for key in fw: frame_dict[key].append(fw[key])` of the ragged branch
(`key` is always present in `frame_dict`, which holds every key seen). -/
def appendRow (fd : List (String × List Py)) (fw : List (String × Py)) :
    List (String × List Py) :=
  fw.foldl (fun fd p => fd.map (fun q => if q.1 = p.1 then (q.1, q.2 ++ [p.2]) else q)) fd

/-- `plural_dict(plural_obj, include_attr, fill_missing, prefix_attr,
delimiter, start_idx)`: flatten every member and merge the flat dicts into
a column frame.  (The Python loop builds `frame_list` and `existing_keys`
together; building them by a map and a fold is the same computation.) -/
def plural_dict (plural_obj : List Node) (include_attr : Bool := false)
    (fill_missing : Bool := true) (prefix_attr : String := "")
    (delimiter : String := ".") (start_idx : Int := 0) : List (String × List Py) :=
  let frame_list := plural_obj.map
    (fun o => obj_dict o include_attr prefix_attr delimiter start_idx)
  let existing_keys := frame_list.foldl
    (fun ks fw => ks ++ (fw.map Prod.fst).filter (fun k => !ks.contains k)) []
  if fill_missing then
    fillLoop (existing_keys.map (fun k => (k, List.replicate plural_obj.length Py.none)))
      0 frame_list
  else
    frame_list.foldl appendRow (existing_keys.map (fun k => (k, ([] : List Py))))

/-! ## The nested-to-plain converter (`to_plain`) -/

/-- `dict.fromkeys(names)` over the ordered content, paired with the value
`getattr` returns for each name: keep the first occurrence of each
distinct element name, in first-occurrence order. -/
def dedupFirst (seen : List String) : List (String × Node) → List (String × Node)
  | [] => []
  | p :: rest =>
      if seen.contains p.1 then dedupFirst seen rest
      else p :: dedupFirst (p.1 :: seen) rest

theorem sizeOf_dedupFirst_le (seen : List String) (l : List (String × Node)) :
    sizeOf (dedupFirst seen l) ≤ sizeOf l := by
  induction l generalizing seen with
  | nil => simp [dedupFirst]
  | cons p rest ih =>
      simp only [dedupFirst]
      split
      · have := ih seen
        simp; omega
      · have := ih (p.1 :: seen)
        simp; omega

theorem sizeOf_items_lt_plural (items : List Node) :
    sizeOf items < sizeOf (Node.plural items) := by
  simp only [Node.plural.sizeOf_spec]; omega

theorem sizeOf_dedup_lt_complex (attrs : List (String × Py))
    (content : List (String × Node)) :
    sizeOf (dedupFirst [] content) < sizeOf (Node.complex attrs content) := by
  have := sizeOf_dedupFirst_le [] content
  simp only [Node.complex.sizeOf_spec]
  omega

theorem sizeOf_snd_lt_pair_cons (name : String) (nd : Node)
    (rest : List (String × Node)) : sizeOf nd < sizeOf ((name, nd) :: rest) := by
  simp only [List.cons.sizeOf_spec, Prod.mk.sizeOf_spec]; omega

theorem sizeOf_tail_lt_pair_cons (p : String × Node)
    (rest : List (String × Node)) : sizeOf rest < sizeOf (p :: rest) := by
  simp only [List.cons.sizeOf_spec]; omega

theorem sizeOf_head_lt_node_cons (n : Node) (ns : List Node) :
    sizeOf n < sizeOf (n :: ns) := by
  simp only [List.cons.sizeOf_spec]; omega

theorem sizeOf_tail_lt_node_cons (n : Node) (ns : List Node) :
    sizeOf ns < sizeOf (n :: ns) := by
  simp only [List.cons.sizeOf_spec]; omega

mutual

/-- `any_to_plain`: dispatch on the node kind — plural bindings and lists
go to the plural converters (column pivot when `transpose`), a node of
class `obj_log` goes to `logdata_dict` with its default
`fill_missing=True`, anything else to `singular_to_plain`. -/
def any_to_plain (ia : Bool) (pa dl : String) (tr : Bool) : Node → Except PyError Py
  | .plural items =>
      if tr then pluralToDictOfLists ia pa dl tr items [] []
      else do
        let xs ← pluralToListOfPlains ia pa dl tr items
        .ok (.list xs)
  | .log _ lg _ =>
      (logdata_dict lg true).map (fun fr => .dict (fr.map (fun p => (p.1, Py.list p.2))))
  | .simple attrs v => singular_to_plain ia pa dl tr (.simple attrs v)
  | .complex attrs content => singular_to_plain ia pa dl tr (.complex attrs content)
  termination_by n => (sizeOf n, 1)
  decreasing_by
  · apply Prod.Lex.left; apply sizeOf_items_lt_plural
  · apply Prod.Lex.left; apply sizeOf_items_lt_plural
  · apply Prod.Lex.right; omega
  · apply Prod.Lex.right; omega

/-- `singular_to_plain`: a simple/empty-content node yields its scalar
value; a structured node yields a dict of its own attributes (with
`include_attr`), then, per distinct child in first-occurrence order, the
child's attributes under `name+delimiter+prefix+attr` and the child's
conversion under `name`.  (`plural`/`log` never reach this function:
`any_to_plain` dispatches them first.) -/
def singular_to_plain (ia : Bool) (pa dl : String) (tr : Bool) : Node → Except PyError Py
  | .simple _ v => .ok v
  | .complex attrs content => do
      let d0 := if ia then attrs.foldl (fun d p => dictInsert d (pa ++ p.1) p.2)
                        ([] : List (String × Py))
                else []
      let d ← childFold ia pa dl tr d0 (dedupFirst [] content)
      .ok (.dict d)
  | .log _ _ _ => .ok .none
  | .plural _ => .ok .none
  termination_by n => (sizeOf n, 0)
  decreasing_by
  · apply Prod.Lex.left; apply sizeOf_dedup_lt_complex

/-- The child loop of `singular_to_plain`, over the deduplicated ordered
content: child attributes are written as plain-concatenated keys
`next_path+delimiter+prefix_attr+attr` (no empty-component filtering
here, unlike `obj_dict`), then the converted child under its name. -/
def childFold (ia : Bool) (pa dl : String) (tr : Bool)
    (d : List (String × Py)) :
    List (String × Node) → Except PyError (List (String × Py))
  | [] => .ok d
  | (name, nd) :: rest => do
      let d' := if ia then
          match attrsOf? nd with
          | some as_ => as_.foldl (fun d p => dictInsert d (name ++ dl ++ pa ++ p.1) p.2) d
          | Option.none => d
        else d
      let v ← any_to_plain ia pa dl tr nd
      childFold ia pa dl tr (dictInsert d' name v) rest
  termination_by l => (sizeOf l, 0)
  decreasing_by
  · apply Prod.Lex.left; apply sizeOf_snd_lt_pair_cons
  · apply Prod.Lex.left; apply sizeOf_tail_lt_pair_cons

/-- `plural_to_list_of_plains`: convert every member. -/
def pluralToListOfPlains (ia : Bool) (pa dl : String) (tr : Bool) :
    List Node → Except PyError (List Py)
  | [] => .ok []
  | n :: ns => do
      let v ← any_to_plain ia pa dl tr n
      let vs ← pluralToListOfPlains ia pa dl tr ns
      .ok (v :: vs)
  termination_by ns => (sizeOf ns, 0)
  decreasing_by
  · apply Prod.Lex.left; apply sizeOf_head_lt_node_cons
  · apply Prod.Lex.left; apply sizeOf_tail_lt_node_cons

/-- `plural_to_dict_of_lists`: convert every member, collecting the frames
and the first-seen key union (`all_keys.update(as_dict)`), then pivot:
`{key: [frame.get(key, None) for frame in frame_list] for key in all_keys}`.
A member converting to a non-mapping makes `dict.update` raise. -/
def pluralToDictOfLists (ia : Bool) (pa dl : String) (tr : Bool) :
    List Node → List (List (String × Py)) → List String → Except PyError Py
  | [], frames, keys =>
      .ok (.dict (keys.map
        (fun k => (k, Py.list (frames.map (fun fr => (dictGet? fr k).getD .none))))))
  | n :: ns, frames, keys => do
      let v ← any_to_plain ia pa dl tr n
      match v with
      | .dict kvs =>
          pluralToDictOfLists ia pa dl tr ns (frames ++ [kvs])
            (kvs.foldl (fun ks p => if ks.contains p.1 then ks else ks ++ [p.1]) keys)
      | _ => .error (.typeError "cannot convert dictionary update sequence")
  termination_by ns _ _ => (sizeOf ns, 0)
  decreasing_by
  · apply Prod.Lex.left; apply sizeOf_head_lt_node_cons
  · apply Prod.Lex.left; apply sizeOf_tail_lt_node_cons

end

/-- `to_plain(obj, include_attr, prefix_attr, delimiter, transpose)`. -/
def to_plain (obj : Node) (include_attr : Bool := false) (prefix_attr : String := "")
    (delimiter : String := ".") (transpose : Bool := false) : Except PyError Py :=
  any_to_plain include_attr prefix_attr delimiter transpose obj

/-- The column pivot of `plural_to_dict_of_lists`, applied to
already-converted plain mappings: union of keys in first-seen order, one
column per key, `None` where a mapping lacks the key. -/
def pivotPlain (frames : List (List (String × Py))) : List (String × List Py) :=
  let all_keys := frames.foldl
    (fun ks kvs => kvs.foldl (fun ks p => if ks.contains p.1 then ks else ks ++ [p.1]) ks) []
  all_keys.map (fun k => (k, frames.map (fun fr => (dictGet? fr k).getD .none)))

/-! ## Auxiliary notions for the specifications -/

/-- The keys of a dict, in order. -/
def keysOf (d : List (String × β)) : List String := d.map Prod.fst

/-- A dict with pairwise distinct keys (every dict the Python code builds
by assignment has this). -/
def NodupKeys (d : List (String × β)) : Prop := (keysOf d).Nodup

/-- Accumulate new keys at the end, keeping first-seen order: the effect
of a key sequence on a Python dict's key order. -/
def insKeys (ks : List String) (ns : List String) : List String :=
  ns.foldl (fun ks n => if ks.contains n then ks else ks ++ [n]) ks

/-- First-seen union of the key lists of a sequence of frames: the order
in which `plural_dict` collects `existing_keys`. -/
def firstSeen (kss : List (List String)) : List String :=
  kss.foldl (fun ks ns => insKeys ks ns) []

/-! ## Concrete inputs used to witness and refute the claims -/

/-- The log of the spec's decoding example: mnemonics `DEPT,GR`, both
curves of type `double`, rows `100.0,50.2` and `100.1,`. -/
def exLog : Log :=
  ⟨[⟨"DEPT", "double"⟩, ⟨"GR", "double"⟩], Option.none,
   [⟨"DEPT,GR", ["100.0,50.2", "100.1,"]⟩]⟩

/-- A log declaring an unrecognized curve type. -/
def badTypeLog : Log :=
  ⟨[⟨"A", "bogus"⟩], Option.none, [⟨"A", ["1"]⟩]⟩

/-- A log whose second data field is not a number. -/
def badFieldLog : Log :=
  ⟨[⟨"DEPT", "double"⟩, ⟨"GR", "double"⟩], Option.none,
   [⟨"DEPT,GR", ["100.0,abc"]⟩]⟩

/-- A log with a short row: one field against two declared mnemonics. -/
def shortRowLog : Log :=
  ⟨[⟨"DEPT", "double"⟩, ⟨"GR", "double"⟩], Option.none,
   [⟨"DEPT,GR", ["100.0,50.2", "100.1"]⟩]⟩

/-- A one-member plural collection used as a repeated child. -/
def memberPlural : Node := .plural [.simple [] (.str "v")]

/-- A structured node in which the plural child `station` occurs twice in
document order around a sibling `other`. -/
def dupNode : Node :=
  .complex [] [("station", memberPlural), ("other", .simple [] (.str "w")),
               ("station", memberPlural)]

/-- The same node with the plural child occurring once, at its first
document position. -/
def dupNodeSingleFirst : Node :=
  .complex [] [("station", memberPlural), ("other", .simple [] (.str "w"))]

/-- A collection member with a nested structured child. -/
def nestedMember : Node :=
  .complex [] [("x", .complex [] [("y", .simple [] (.str "v"))])]

/-- Two flat members with keys `{a, b}` and `{a, c}`. -/
def flatMemberAB : Node :=
  .complex [] [("a", .simple [] (.str "a0")), ("b", .simple [] (.str "b0"))]

/-- See `flatMemberAB`. -/
def flatMemberAC : Node :=
  .complex [] [("a", .simple [] (.str "a1")), ("c", .simple [] (.str "c1"))]

/-- Python `sub in s` for non-empty `sub`: does `sub` occur in `s`? -/
def strOccurs (s sub : String) : Bool :=
  (pySplit s sub).length > 1

/-- A collection member that is a structured node all of whose children
are simple-content leaves (no nesting, no plural children). -/
def FlatMember : Node → Prop
  | .complex _ content => ∀ p ∈ content, ∃ a v, p.2 = Node.simple a v
  | _ => False

/-- The scalar value of a simple-content node. -/
def simpleVal : Node → Py
  | .simple _ v => v
  | _ => .none

/-- The plain dict `to_plain` produces for a flat member: its distinct
children in first-occurrence order, each mapped to its scalar value. -/
def flatPlain : Node → List (String × Py)
  | .complex _ content =>
      foldInserts [] ((dedupFirst [] content).map (fun p => (p.1, simpleVal p.2)))
  | _ => []

/-! ## Dictionary lemmas -/

section DictLemmas

variable {β : Type}

theorem keysOf_nil : keysOf ([] : List (String × β)) = [] := rfl

theorem keysOf_cons (p : String × β) (d : List (String × β)) :
    keysOf (p :: d) = p.1 :: keysOf d := rfl

theorem keysOf_append (d e : List (String × β)) :
    keysOf (d ++ e) = keysOf d ++ keysOf e := by
  simp [keysOf]

theorem containsKey_iff {d : List (String × β)} {k : String} :
    containsKey d k = true ↔ k ∈ keysOf d := by
  induction d with
  | nil => simp [containsKey, keysOf]
  | cons p d ih =>
      simp only [containsKey, List.any_cons, Bool.or_eq_true, beq_iff_eq,
        keysOf_cons, List.mem_cons] at *
      constructor
      · rintro (h | h)
        · exact Or.inl h.symm
        · exact Or.inr (ih.mp h)
      · rintro (h | h)
        · exact Or.inl h.symm
        · exact Or.inr (ih.mpr h)

theorem containsKey_eq_false_iff {d : List (String × β)} {k : String} :
    containsKey d k = false ↔ k ∉ keysOf d := by
  rw [← Bool.not_eq_true, not_iff_not]
  exact containsKey_iff

theorem dictGet?_nil (k : String) : dictGet? ([] : List (String × β)) k = Option.none := rfl

theorem dictGet?_cons (k' : String) (v : β) (d : List (String × β)) (k : String) :
    dictGet? ((k', v) :: d) k = if k' = k then some v else dictGet? d k := by
  by_cases h : k' = k <;> simp [dictGet?, List.find?_cons, h]

theorem dictGet?_append (d e : List (String × β)) (k : String) :
    dictGet? (d ++ e) k = (dictGet? d k).or (dictGet? e k) := by
  simp only [dictGet?, List.find?_append]
  cases List.find? (fun p => p.1 == k) d <;> simp

theorem dictGet?_eq_none_of_not_mem {d : List (String × β)} {k : String}
    (h : k ∉ keysOf d) : dictGet? d k = Option.none := by
  induction d with
  | nil => rfl
  | cons p d ih =>
      rw [show p = (p.1, p.2) from rfl, dictGet?_cons]
      rw [keysOf_cons, List.mem_cons, not_or] at h
      rw [if_neg (fun hh => h.1 hh.symm)]
      exact ih h.2

theorem mem_keysOf_iff_isSome {d : List (String × β)} {k : String} :
    k ∈ keysOf d ↔ (dictGet? d k).isSome := by
  induction d with
  | nil => simp [keysOf, dictGet?]
  | cons p d ih =>
      rw [show p = (p.1, p.2) from rfl, dictGet?_cons, keysOf_cons, List.mem_cons]
      by_cases h : p.1 = k
      · simp [h]
      · rw [if_neg h, or_iff_right (fun hh => h hh.symm)]
        exact ih

theorem keysOf_replace (d : List (String × β)) (k : String) (v : β) :
    keysOf (d.map (fun p => if p.1 = k then (k, v) else p)) = keysOf d := by
  induction d with
  | nil => rfl
  | cons p d ih =>
      simp only [List.map_cons, keysOf_cons, ih]
      by_cases h : p.1 = k <;> simp [h]

theorem containsKey_cons (p : String × β) (d : List (String × β)) (k : String) :
    containsKey (p :: d) k = ((p.1 == k) || containsKey d k) := rfl

theorem dictGet?_replace (d : List (String × β)) (k k' : String) (v : β) :
    dictGet? (d.map (fun p => if p.1 = k then (k, v) else p)) k'
      = if k' = k then (if containsKey d k then some v else Option.none)
        else dictGet? d k' := by
  induction d with
  | nil =>
      by_cases h : k' = k <;> simp [dictGet?, containsKey, h]
  | cons p d ih =>
      by_cases h1 : p.1 = k
      · have hmap : (p :: d).map (fun q => if q.1 = k then (k, v) else q)
            = (k, v) :: d.map (fun q => if q.1 = k then (k, v) else q) := by
          simp [h1]
        have hck : containsKey (p :: d) k = true := by
          rw [containsKey_cons]
          simp [h1]
        rw [hmap, dictGet?_cons, ih, hck]
        by_cases h2 : k' = k
        · rw [if_pos h2.symm, if_pos h2, if_pos rfl]
        · rw [if_neg (fun hh => h2 hh.symm), if_neg h2, if_neg h2,
              show p = (p.1, p.2) from rfl, dictGet?_cons,
              if_neg (fun hh => h2 (h1 ▸ hh).symm)]
      · have hmap : (p :: d).map (fun q => if q.1 = k then (k, v) else q)
            = p :: d.map (fun q => if q.1 = k then (k, v) else q) := by
          simp [h1]
        have hck : containsKey (p :: d) k = containsKey d k := by
          rw [containsKey_cons]
          simp [h1]
        rw [hmap, show p = (p.1, p.2) from rfl, dictGet?_cons, ih, hck,
            show ((p.1, p.2) : String × β) :: d = p :: d from rfl]
        by_cases h2 : p.1 = k'
        · rw [if_pos h2, if_neg (fun hh => h1 (h2.trans hh)),
              show p = (p.1, p.2) from rfl, dictGet?_cons, if_pos h2]
        · rw [if_neg h2]
          by_cases h3 : k' = k
          · rw [if_pos h3, if_pos h3]
          · rw [if_neg h3, if_neg h3, show p = (p.1, p.2) from rfl,
                dictGet?_cons, if_neg h2]

theorem dictGet?_dictInsert (d : List (String × β)) (k k' : String) (v : β) :
    dictGet? (dictInsert d k v) k' = if k' = k then some v else dictGet? d k' := by
  unfold dictInsert
  by_cases hc : containsKey d k
  · rw [if_pos hc, dictGet?_replace, if_pos hc]
  · rw [if_neg hc, dictGet?_append]
    have hk : k ∉ keysOf d := containsKey_eq_false_iff.mp (by simpa using hc)
    by_cases h : k' = k
    · subst h
      rw [dictGet?_eq_none_of_not_mem hk, dictGet?_cons, if_pos rfl, if_pos rfl]
      rfl
    · rw [dictGet?_cons, if_neg (fun hh => h hh.symm), dictGet?_nil, Option.or_none,
          if_neg h]

theorem keysOf_dictInsert (d : List (String × β)) (k : String) (v : β) :
    keysOf (dictInsert d k v)
      = if containsKey d k then keysOf d else keysOf d ++ [k] := by
  unfold dictInsert
  by_cases hc : containsKey d k
  · rw [if_pos hc, if_pos hc, keysOf_replace]
  · rw [if_neg hc, if_neg hc, keysOf_append, keysOf_cons, keysOf_nil]

theorem NodupKeys_dictInsert {d : List (String × β)} (k : String) (v : β)
    (h : NodupKeys d) : NodupKeys (dictInsert d k v) := by
  unfold NodupKeys
  rw [keysOf_dictInsert]
  by_cases hc : containsKey d k
  · rwa [if_pos hc]
  · rw [if_neg hc]
    have hk : k ∉ keysOf d := containsKey_eq_false_iff.mp (by simpa using hc)
    rw [List.nodup_append]
    refine ⟨h, List.nodup_singleton _, ?_⟩
    intro a ha hb
    rw [List.mem_singleton] at hb
    exact hk (hb ▸ ha)

theorem foldInserts_nil (d : List (String × β)) : foldInserts d [] = d := rfl

theorem foldInserts_cons (d : List (String × β)) (p : String × β)
    (ps : List (String × β)) :
    foldInserts d (p :: ps) = foldInserts (dictInsert d p.1 p.2) ps := rfl

theorem foldInserts_append (d ps qs : List (String × β)) :
    foldInserts d (ps ++ qs) = foldInserts (foldInserts d ps) qs := by
  simp [foldInserts, List.foldl_append]

theorem foldInserts_single (d : List (String × β)) (k : String) (v : β) :
    foldInserts d [(k, v)] = dictInsert d k v := rfl

theorem dictGet?_foldInserts (d ps : List (String × β)) (k : String) :
    dictGet? (foldInserts d ps) k = (dictGet? ps.reverse k).or (dictGet? d k) := by
  induction ps generalizing d with
  | nil => simp [foldInserts, dictGet?]
  | cons p ps ih =>
      rw [foldInserts_cons, ih, List.reverse_cons, dictGet?_append, Option.or_assoc]
      congr 1
      rw [dictGet?_dictInsert]
      rw [show dictGet? [p] k = if p.1 = k then some p.2 else Option.none from by
            rw [show p = (p.1, p.2) from rfl, dictGet?_cons, dictGet?_nil]]
      by_cases h : p.1 = k
      · rw [if_pos h.symm, if_pos h]
        rfl
      · rw [if_neg (fun hh => h hh.symm), if_neg h]
        rfl

theorem contains_eq_decide_mem (l : List String) (k : String) :
    l.contains k = decide (k ∈ l) := List.elem_eq_mem k l

theorem insKeys_nil (ks : List String) : insKeys ks [] = ks := rfl

theorem insKeys_cons (ks : List String) (n : String) (ns : List String) :
    insKeys ks (n :: ns) = insKeys (if ks.contains n then ks else ks ++ [n]) ns := rfl

theorem containsKey_eq_contains (d : List (String × β)) (k : String) :
    containsKey d k = (keysOf d).contains k := by
  rw [contains_eq_decide_mem]
  by_cases h : k ∈ keysOf d
  · rw [containsKey_iff.mpr h]
    simp [h]
  · rw [containsKey_eq_false_iff.mpr h]
    simp [h]

theorem keysOf_foldInserts (d ps : List (String × β)) :
    keysOf (foldInserts d ps) = insKeys (keysOf d) (keysOf ps) := by
  induction ps generalizing d with
  | nil => rfl
  | cons p ps ih =>
      rw [foldInserts_cons, ih, keysOf_dictInsert, containsKey_eq_contains,
          keysOf_cons, insKeys_cons]

theorem NodupKeys_foldInserts {d : List (String × β)} (ps : List (String × β))
    (h : NodupKeys d) : NodupKeys (foldInserts d ps) := by
  induction ps generalizing d with
  | nil => exact h
  | cons p ps ih => exact ih (NodupKeys_dictInsert p.1 p.2 h)

theorem mem_insKeys_of_mem {ks : List String} (ns : List String) {k : String}
    (h : k ∈ ks) : k ∈ insKeys ks ns := by
  induction ns generalizing ks with
  | nil => exact h
  | cons n ns ih =>
      rw [insKeys_cons]
      by_cases hc : ks.contains n
      · rw [if_pos hc]
        exact ih h
      · rw [if_neg hc]
        exact ih (by simp [h])

theorem insKeys_eq_of_subset {ks ns : List String} (h : ∀ n ∈ ns, n ∈ ks) :
    insKeys ks ns = ks := by
  induction ns generalizing ks with
  | nil => rfl
  | cons n ns ih =>
      rw [insKeys_cons, if_pos (by
        rw [contains_eq_decide_mem]
        simp [h n (by simp)])]
      exact ih (fun m hm => h m (by simp [hm]))

theorem dict_ext {X Y : List (String × β)} (hx : NodupKeys X) (hy : NodupKeys Y)
    (hk : keysOf X = keysOf Y) (hv : ∀ k, dictGet? X k = dictGet? Y k) : X = Y := by
  induction X generalizing Y with
  | nil =>
      cases Y with
      | nil => rfl
      | cons q Y => simp [keysOf] at hk
  | cons p X ih =>
      cases Y with
      | nil => simp [keysOf] at hk
      | cons q Y =>
          rw [keysOf_cons, keysOf_cons] at hk
          have hpq : p.1 = q.1 := (List.cons.injEq _ _ _ _ ▸ hk).1
          have htl : keysOf X = keysOf Y := (List.cons.injEq _ _ _ _ ▸ hk).2
          have hxX : p.1 ∉ keysOf X := by
            have := hx
            unfold NodupKeys at this
            rw [keysOf_cons, List.nodup_cons] at this
            exact this.1
          have hyY : q.1 ∉ keysOf Y := by
            have := hy
            unfold NodupKeys at this
            rw [keysOf_cons, List.nodup_cons] at this
            exact this.1
          have hval : p.2 = q.2 := by
            have h1 := hv p.1
            rw [show p = (p.1, p.2) from rfl, dictGet?_cons, if_pos rfl,
                show q = (q.1, q.2) from rfl, dictGet?_cons, if_pos hpq.symm] at h1
            exact Option.some.inj h1
          have hXY : X = Y := by
            refine ih ?_ ?_ htl ?_
            · have := hx
              unfold NodupKeys at this ⊢
              rw [keysOf_cons, List.nodup_cons] at this
              exact this.2
            · have := hy
              unfold NodupKeys at this ⊢
              rw [keysOf_cons, List.nodup_cons] at this
              exact this.2
            · intro k
              by_cases h : k = p.1
              · subst h
                rw [dictGet?_eq_none_of_not_mem hxX,
                    dictGet?_eq_none_of_not_mem (htl ▸ hxX)]
              · have h1 := hv k
                rw [show p = (p.1, p.2) from rfl, dictGet?_cons,
                    if_neg (fun hh => h hh.symm),
                    show q = (q.1, q.2) from rfl, dictGet?_cons,
                    if_neg (fun hh => h (hpq.trans hh).symm)] at h1
                exact h1
          calc p :: X = (p.1, p.2) :: X := rfl
            _ = (q.1, q.2) :: Y := by rw [hpq, hval, hXY]
            _ = q :: Y := rfl

theorem keysOf_reverse (d : List (String × β)) :
    keysOf d.reverse = (keysOf d).reverse := by
  simp [keysOf]

theorem mem_keysOf_foldInserts_right {ps : List (String × β)}
    (d : List (String × β)) {k : String} (h : k ∈ keysOf ps) :
    k ∈ keysOf (foldInserts d ps) := by
  rw [mem_keysOf_iff_isSome, dictGet?_foldInserts]
  have hs : (dictGet? ps.reverse k).isSome := by
    rw [← mem_keysOf_iff_isSome, keysOf_reverse, List.mem_reverse]
    exact h
  cases ho : dictGet? ps.reverse k with
  | none => rw [ho] at hs; simp at hs
  | some v => simp

theorem mem_keysOf_foldInserts_left (ps : List (String × β))
    {d : List (String × β)} {k : String} (h : k ∈ keysOf d) :
    k ∈ keysOf (foldInserts d ps) := by
  rw [keysOf_foldInserts]
  exact mem_insKeys_of_mem _ h

theorem foldInserts_rerun (d ps qs : List (String × β)) (hd : NodupKeys d)
    (hdisj : ∀ k, k ∈ keysOf ps → k ∉ keysOf qs) :
    foldInserts (foldInserts (foldInserts d ps) qs) ps
      = foldInserts (foldInserts d ps) qs := by
  have hY : NodupKeys (foldInserts (foldInserts d ps) qs) :=
    NodupKeys_foldInserts qs (NodupKeys_foldInserts ps hd)
  refine dict_ext (NodupKeys_foldInserts ps hY) hY ?_ ?_
  · rw [keysOf_foldInserts]
    refine insKeys_eq_of_subset ?_
    intro n hn
    exact mem_keysOf_foldInserts_left qs (mem_keysOf_foldInserts_right d hn)
  · intro k
    rw [dictGet?_foldInserts]
    by_cases h : k ∈ keysOf ps
    · obtain ⟨v, hv⟩ := Option.isSome_iff_exists.mp (show (dictGet? ps.reverse k).isSome by
        rw [← mem_keysOf_iff_isSome, keysOf_reverse, List.mem_reverse]; exact h)
      rw [hv, dictGet?_foldInserts,
          dictGet?_eq_none_of_not_mem
            (by rw [keysOf_reverse, List.mem_reverse]; exact hdisj k h),
          dictGet?_foldInserts, hv]
      simp
    · rw [dictGet?_eq_none_of_not_mem
            (by rw [keysOf_reverse, List.mem_reverse]; exact h)]
      simp

end DictLemmas

/-! ## The work-list loop as a fold of its assignment sequence -/

theorem node_sizeOf_pos (n : Node) : 0 < sizeOf n := by
  cases n <;>
    (simp only [Node.simple.sizeOf_spec, Node.complex.sizeOf_spec,
      Node.log.sizeOf_spec, Node.plural.sizeOf_spec]; omega)

theorem obj_dict_go_eq_foldInserts (ia : Bool) (pa dl : String) (si : Int)
    (st : List (String × Node)) (acc : List (String × Py)) :
    obj_dict_go ia pa dl si st acc = foldInserts acc (emits ia pa dl si st) := by
  induction st, acc using obj_dict_go.induct ia pa dl si with
  | case1 acc => simp only [obj_dict_go, emits, foldInserts_nil]
  | case2 base items rest acc ih =>
      simp only [obj_dict_go, emits]
      exact ih
  | case3 base attrs v rest acc ih =>
      simp only [dite_eq_ite] at ih
      simp only [obj_dict_go, emits]
      rw [ih, foldInserts_append, foldInserts_append, foldInserts_single]
      cases ia <;> rfl
  | case4 base attrs content rest acc ih =>
      simp only [dite_eq_ite] at ih
      simp only [obj_dict_go, emits]
      rw [ih, foldInserts_append]
      cases ia <;> rfl
  | case5 base attrs lgx content rest acc ih =>
      simp only [dite_eq_ite] at ih
      simp only [obj_dict_go, emits]
      rw [ih, foldInserts_append]
      cases ia <;> rfl

theorem obj_dict_eq_foldInserts (n : Node) (ia : Bool) (pa dl : String) (si : Int) :
    obj_dict n ia pa dl si = foldInserts [] (emits ia pa dl si [("", n)]) :=
  obj_dict_go_eq_foldInserts ia pa dl si [("", n)] []

theorem NodupKeys_obj_dict (n : Node) (ia : Bool) (pa dl : String) (si : Int) :
    NodupKeys (obj_dict n ia pa dl si) := by
  rw [obj_dict_eq_foldInserts]
  exact NodupKeys_foldInserts _ (by simp [NodupKeys, keysOf])

theorem emits_append (ia : Bool) (pa dl : String) (si : Int)
    (S T : List (String × Node)) :
    emits ia pa dl si (S ++ T) = emits ia pa dl si S ++ emits ia pa dl si T := by
  suffices H : ∀ n S, stackSize S ≤ n → ∀ T : List (String × Node),
      emits ia pa dl si (S ++ T) = emits ia pa dl si S ++ emits ia pa dl si T from
    H (stackSize S) S le_rfl T
  intro n
  induction n with
  | zero =>
      intro S hS T
      cases S with
      | nil => simp [emits]
      | cons p S' =>
          exfalso
          rw [stackSize_cons] at hS
          have := node_sizeOf_pos p.2
          omega
  | succ n ih =>
      intro S hS T
      cases S with
      | nil => simp [emits]
      | cons p S' =>
          obtain ⟨base, node⟩ := p
          rw [stackSize_cons] at hS
          cases node with
          | plural items =>
              rw [List.cons_append]
              simp only [emits]
              rw [← List.append_assoc]
              refine ih _ ?_ T
              rw [stackSize_append, stackSize_reverse, stackSize_enumFrom]
              have := nodes_sum_lt_plural items
              omega
          | simple attrs v =>
              rw [List.cons_append]
              simp only [emits]
              rw [ih S' (by have := node_sizeOf_pos (Node.simple attrs v); omega) T]
              simp [List.append_assoc]
          | complex attrs content =>
              rw [List.cons_append]
              simp only [emits]
              rw [← List.append_assoc,
                  ih _ (by
                    rw [stackSize_append, stackSize_reverse, stackSize_contentMap]
                    have := content_sum_lt_complex attrs content
                    omega) T]
              simp [List.append_assoc]
          | log attrs lgy content =>
              rw [List.cons_append]
              simp only [emits]
              rw [← List.append_assoc,
                  ih _ (by
                    rw [stackSize_append, stackSize_reverse, stackSize_contentMap]
                    have := content_sum_lt_log attrs lgy content
                    omega) T]
              simp [List.append_assoc]

/-! ## Characterizing the fill-missing frame construction -/

section FillLemmas

variable {β : Type}

theorem keysOf_mapform (keys : List String) (f : String → β) :
    keysOf (keys.map (fun k => (k, f k))) = keys := by
  induction keys with
  | nil => rfl
  | cons a ks ih => rw [List.map_cons, keysOf_cons, ih]

theorem dictGet?_mapform (keys : List String) (f : String → β) (k : String) :
    dictGet? (keys.map (fun k => (k, f k))) k
      = if k ∈ keys then some (f k) else Option.none := by
  induction keys with
  | nil => simp [dictGet?]
  | cons a ks ih =>
      rw [List.map_cons, dictGet?_cons, ih]
      by_cases h : a = k
      · rw [if_pos h, if_pos (by simp [h])]
        rw [h]
      · rw [if_neg h]
        by_cases h2 : k ∈ ks
        · rw [if_pos h2, if_pos (by simp [h2])]
        · rw [if_neg h2, if_neg (by
            rw [List.mem_cons]
            rintro (hh | hh)
            · exact h hh.symm
            · exact h2 hh)]

theorem listSet_append_length (xs : List Py) (y : Py) (ys : List Py) (v : Py) :
    listSet (xs ++ y :: ys) xs.length v = xs ++ v :: ys := by
  induction xs with
  | nil => rfl
  | cons x xs ih => simp [listSet, ih]

theorem dictSetAt_map (keys : List String) (f : String → List Py) (k0 : String)
    (idx : Nat) (v : Py) :
    dictSetAt (keys.map (fun k => (k, f k))) k0 idx v
      = keys.map (fun k => (k, if k = k0 then listSet (f k) idx v else f k)) := by
  simp only [dictSetAt, List.map_map]
  refine List.map_congr_left ?_
  intro k _
  by_cases h : k = k0 <;> simp [h, Function.comp]

theorem setRow_map (keys : List String) (f : String → List Py) (idx : Nat)
    (fw : List (String × Py)) (hfw : NodupKeys fw) :
    setRow (keys.map (fun k => (k, f k))) idx fw
      = keys.map (fun k => (k, match dictGet? fw k with
                               | some v => listSet (f k) idx v
                               | Option.none => f k)) := by
  induction fw generalizing f with
  | nil =>
      refine Eq.trans rfl (List.map_congr_left ?_).symm
      intro k _
      rw [dictGet?_nil]
  | cons p fw ih =>
      obtain ⟨k0, v0⟩ := p
      have hk0 : k0 ∉ keysOf fw := by
        have := hfw
        unfold NodupKeys at this
        rw [keysOf_cons, List.nodup_cons] at this
        exact this.1
      have htl : NodupKeys fw := by
        have := hfw
        unfold NodupKeys at this
        rw [keysOf_cons, List.nodup_cons] at this
        exact this.2
      show setRow (if containsKey (keys.map (fun k => (k, f k))) k0
              then dictSetAt (keys.map (fun k => (k, f k))) k0 idx v0
              else keys.map (fun k => (k, f k))) idx fw = _
      by_cases hc : containsKey (keys.map (fun k => (k, f k))) k0
      · rw [if_pos hc, dictSetAt_map, ih _ htl]
        refine List.map_congr_left ?_
        intro k _
        simp only [Prod.mk.injEq, true_and]
        by_cases h : k = k0
        · subst h
          rw [dictGet?_eq_none_of_not_mem hk0, dictGet?_cons, if_pos rfl]
          simp
        · rw [dictGet?_cons, if_neg (fun (hh : k0 = k) => h hh.symm)]
          cases dictGet? fw k <;> simp [h]
      · rw [if_neg hc, ih _ htl]
        have hk0keys : k0 ∉ keys := by
          intro hmem
          exact hc (containsKey_iff.mpr (by rw [keysOf_mapform]; exact hmem))
        refine List.map_congr_left ?_
        intro k hk
        simp only [Prod.mk.injEq, true_and]
        rw [dictGet?_cons, if_neg (fun (hh : k0 = k) => hk0keys (hh ▸ hk))]

theorem fillLoop_pad (keys : List String) (pre : String → List Py)
    (frames : List (List (String × Py))) (idx : Nat)
    (hpre : ∀ k, (pre k).length = idx)
    (hframes : ∀ fw ∈ frames, NodupKeys fw) :
    fillLoop (keys.map (fun k => (k, pre k ++ List.replicate frames.length Py.none)))
        idx frames
      = keys.map (fun k =>
          (k, pre k ++ frames.map (fun fw => (dictGet? fw k).getD Py.none))) := by
  induction frames generalizing pre idx with
  | nil => simp [fillLoop]
  | cons fw frames ih =>
      show fillLoop (setRow _ idx fw) (idx + 1) frames = _
      rw [setRow_map _ _ _ _ (hframes fw (by simp))]
      have hfun : ∀ k, (match dictGet? fw k with
                        | some v => listSet (pre k ++ List.replicate (fw :: frames).length Py.none) idx v
                        | Option.none => pre k ++ List.replicate (fw :: frames).length Py.none)
          = (pre k ++ [(dictGet? fw k).getD Py.none]) ++ List.replicate frames.length Py.none := by
        intro k
        rw [List.length_cons, List.replicate_succ]
        cases dictGet? fw k with
        | none =>
            show pre k ++ Py.none :: List.replicate frames.length Py.none
              = (pre k ++ [(Option.none : Option Py).getD Py.none])
                  ++ List.replicate frames.length Py.none
            simp
        | some v =>
            show listSet (pre k ++ Py.none :: List.replicate frames.length Py.none) idx v
              = (pre k ++ [(some v).getD Py.none]) ++ List.replicate frames.length Py.none
            rw [show idx = (pre k).length from (hpre k).symm, listSet_append_length]
            simp
      rw [show (keys.map (fun k =>
            (k, match dictGet? fw k with
                | some v => listSet (pre k ++ List.replicate (fw :: frames).length Py.none) idx v
                | Option.none => pre k ++ List.replicate (fw :: frames).length Py.none)))
          = keys.map (fun k =>
            (k, (pre k ++ [(dictGet? fw k).getD Py.none]) ++ List.replicate frames.length Py.none)) from
        List.map_congr_left (fun k _ => by rw [hfun k])]
      rw [ih (fun k => pre k ++ [(dictGet? fw k).getD Py.none])
            (idx + 1) (fun k => by simp [hpre k]) (fun fw' h => hframes fw' (by simp [h]))]
      refine List.map_congr_left ?_
      intro k _
      simp

theorem insKeys_eq_filter_append {ks ns : List String} (h : ns.Nodup) :
    insKeys ks ns = ks ++ ns.filter (fun n => !ks.contains n) := by
  induction ns generalizing ks with
  | nil => simp [insKeys_nil]
  | cons n ns ih =>
      rw [List.nodup_cons] at h
      rw [insKeys_cons, List.filter_cons]
      by_cases hm : n ∈ ks
      · have hc : ks.contains n = true := by
          rw [contains_eq_decide_mem]; simp [hm]
        rw [if_pos hc, ih h.2,
            show (!ks.contains n) = false from by rw [hc]; rfl]
        simp
      · have hc : ks.contains n = false := by
          rw [contains_eq_decide_mem]; simp [hm]
        rw [if_neg (by intro hh; rw [hc] at hh; exact Bool.false_ne_true hh), ih h.2,
            show (!ks.contains n) = true from by rw [hc]; rfl, if_pos rfl,
            List.append_assoc, List.singleton_append]
        congr 1
        congr 1
        refine List.filter_congr ?_
        intro m hm'
        have hmn : m ≠ n := fun hh => h.1 (hh ▸ hm')
        rw [contains_eq_decide_mem, contains_eq_decide_mem]
        simp [hmn]

theorem foldl_filter_eq_foldl_insKeys (frames : List (List (String × Py)))
    (hframes : ∀ fw ∈ frames, NodupKeys fw) :
    ∀ ks, frames.foldl
        (fun ks fw => ks ++ (fw.map Prod.fst).filter (fun k => !ks.contains k)) ks
      = frames.foldl (fun ks fw => insKeys ks (keysOf fw)) ks := by
  induction frames with
  | nil => intro ks; rfl
  | cons fw frames ih =>
      intro ks
      rw [List.foldl_cons, List.foldl_cons,
          show insKeys ks (keysOf fw) = ks ++ (keysOf fw).filter (fun n => !ks.contains n) from
            insKeys_eq_filter_append (hframes fw (by simp))]
      exact ih (fun fw' h' => hframes fw' (by simp [h'])) _

theorem existing_keys_eq_firstSeen (frames : List (List (String × Py)))
    (hframes : ∀ fw ∈ frames, NodupKeys fw) :
    frames.foldl (fun ks fw => ks ++ (fw.map Prod.fst).filter (fun k => !ks.contains k)) []
      = firstSeen (frames.map keysOf) := by
  unfold firstSeen
  rw [List.foldl_map]
  exact foldl_filter_eq_foldl_insKeys frames hframes []

/-- The fill-missing branch of `plural_dict`, in closed form: one column
per first-seen key, column entry `i` holding member `i`'s value for the
key, `None` where member `i` lacks it. -/
theorem plural_dict_fill (objs : List Node) (ia : Bool) (pa dl : String) (si : Int) :
    plural_dict objs ia true pa dl si
      = (firstSeen ((objs.map (fun o => obj_dict o ia pa dl si)).map keysOf)).map
          (fun k => (k, (objs.map (fun o => obj_dict o ia pa dl si)).map
                          (fun fw => (dictGet? fw k).getD Py.none))) := by
  unfold plural_dict
  rw [if_pos rfl]
  have hnodup : ∀ fw ∈ objs.map (fun o => obj_dict o ia pa dl si), NodupKeys fw := by
    intro fw hfw
    rw [List.mem_map] at hfw
    obtain ⟨o, _, rfl⟩ := hfw
    exact NodupKeys_obj_dict o ia pa dl si
  rw [existing_keys_eq_firstSeen _ hnodup]
  rw [show objs.length = (objs.map (fun o => obj_dict o ia pa dl si)).length from
        (List.length_map _ _).symm]
  have := fillLoop_pad
      (firstSeen ((objs.map (fun o => obj_dict o ia pa dl si)).map keysOf))
      (fun _ => []) (objs.map (fun o => obj_dict o ia pa dl si)) 0
      (fun _ => rfl) hnodup
  simpa using this

end FillLemmas

/-! ## Lemmas about the log decoder -/

theorem castMap_loop_error (cs : List CurveInfo) (c : CurveInfo)
    (hfind : cs.find? (fun c => (LOG_PRIM_TYPES c.typeLogData).isNone) = some c)
    (d : List (String × CastFn)) :
    (cs.foldlM (fun d c =>
        match LOG_PRIM_TYPES c.typeLogData with
        | some fn => Except.ok (dictInsert d c.mnemonic fn)
        | Option.none => Except.error (PyError.keyError c.typeLogData)) d
      : Except PyError (List (String × CastFn)))
      = .error (.keyError c.typeLogData) := by
  induction cs generalizing d with
  | nil => simp at hfind
  | cons c0 cs ih =>
      cases h0 : LOG_PRIM_TYPES c0.typeLogData with
      | none =>
          simp only [List.find?_cons, h0, Option.isNone_none] at hfind
          have hc : c0 = c := by
            by_cases hh : c0 = c
            · exact hh
            · simp at hfind
              exact hfind
          subst hc
          rw [List.foldlM_cons, h0]
          rfl
      | some fn =>
          simp only [List.find?_cons, h0, Option.isNone_some] at hfind
          rw [List.foldlM_cons, h0]
          exact ih hfind _

theorem logdata_dict_keyError (lg : Log) (fm : Bool) (c : CurveInfo)
    (hfind : lg.logCurveInfo.find?
        (fun c => (LOG_PRIM_TYPES c.typeLogData).isNone) = some c) :
    logdata_dict lg fm = .error (.keyError c.typeLogData) := by
  have h := castMap_loop_error lg.logCurveInfo c hfind []
  simp only [logdata_dict, buildCastMap]
  rw [h]
  rfl

theorem procFields_short_aux (fill : Bool) :
    ∀ (fields : List String) (cols : List ColAcc), fields.length ≤ cols.length →
      procFields fill fields cols
        = (procFields fill fields (cols.take fields.length)).map
            (fun cs => cs ++ cols.drop fields.length) := by
  intro fields
  induction fields with
  | nil =>
      intro cols _
      simp [procFields, Except.map]
  | cons f fs ih =>
      intro cols h
      cases cols with
      | nil => simp at h
      | cons c cs =>
          have hlen : fs.length ≤ cs.length := by
            rw [List.length_cons, List.length_cons] at h
            omega
          rw [List.length_cons, List.take_succ_cons, List.drop_succ_cons]
          by_cases hf : f = ""
          · by_cases hfill : fill = true
            · rw [show procFields fill (f :: fs) (c :: cs)
                    = (procFields fill fs cs).bind
                        (fun rest => .ok ({ c with values := c.values ++ [Py.none] } :: rest)) from by
                    simp only [procFields, if_pos hf, hfill, if_pos rfl]; rfl,
                  show procFields fill (f :: fs) (c :: cs.take fs.length)
                    = (procFields fill fs (cs.take fs.length)).bind
                        (fun rest => .ok ({ c with values := c.values ++ [Py.none] } :: rest)) from by
                    simp only [procFields, if_pos hf, hfill, if_pos rfl]; rfl,
                  ih cs hlen]
              cases procFields fill fs (cs.take fs.length) with
              | error e => rfl
              | ok r => simp [Except.map, Except.bind]
            · rw [show procFields fill (f :: fs) (c :: cs)
                    = (procFields fill fs cs).bind (fun rest => .ok (c :: rest)) from by
                    simp only [procFields, if_pos hf, if_neg hfill]; rfl,
                  show procFields fill (f :: fs) (c :: cs.take fs.length)
                    = (procFields fill fs (cs.take fs.length)).bind
                        (fun rest => .ok (c :: rest)) from by
                    simp only [procFields, if_pos hf, if_neg hfill]; rfl,
                  ih cs hlen]
              cases procFields fill fs (cs.take fs.length) with
              | error e => rfl
              | ok r => simp [Except.map, Except.bind]
          · rw [show procFields fill (f :: fs) (c :: cs)
                  = (c.cast f).bind (fun v => (procFields fill fs cs).bind
                      (fun rest => .ok ({ c with values := c.values ++ [v] } :: rest))) from by
                  simp only [procFields, if_neg hf]; rfl,
                show procFields fill (f :: fs) (c :: cs.take fs.length)
                  = (c.cast f).bind (fun v => (procFields fill fs (cs.take fs.length)).bind
                      (fun rest => .ok ({ c with values := c.values ++ [v] } :: rest))) from by
                  simp only [procFields, if_neg hf]; rfl,
                ih cs hlen]
            cases c.cast f with
            | error e => rfl
            | ok v =>
                cases procFields fill fs (cs.take fs.length) with
                | error e => rfl
                | ok r => simp [Except.map, Except.bind]

theorem procFields_spec (fill : Bool) :
    ∀ (fields : List String) (cols res : List ColAcc),
      procFields fill fields cols = .ok res →
      res.length = cols.length ∧
      ∀ (i : Nat) (c : ColAcc), cols[i]? = some c →
        ∃ r : ColAcc, res[i]? = some r ∧ r.mnem = c.mnem ∧ r.cast = c.cast ∧
          (fields[i]? = Option.none → r.values = c.values) ∧
          (fields[i]? = some "" →
             r.values = c.values ++ (if fill then [Py.none] else [])) ∧
          (∀ f, fields[i]? = some f → f ≠ "" →
             ∃ v, c.cast f = .ok v ∧ r.values = c.values ++ [v]) := by
  intro fields
  induction fields with
  | nil =>
      intro cols res h
      have hres : res = cols := by
        simp only [procFields] at h
        exact (Except.ok.inj h).symm
      subst hres
      refine ⟨rfl, ?_⟩
      intro i c hc
      exact ⟨c, hc, rfl, rfl, fun _ => rfl, by simp, by simp⟩
  | cons f fs ih =>
      intro cols res h
      cases cols with
      | nil =>
          by_cases hc : f = "" ∧ fill = false
          · rw [show procFields fill (f :: fs) [] = procFields fill fs [] from by
                  simp only [procFields, if_pos hc]] at h
            obtain ⟨hlen, _⟩ := ih [] res h
            refine ⟨hlen, ?_⟩
            intro i c hc'
            simp at hc'
          · rw [show procFields fill (f :: fs) [] = .error .indexError from by
                  simp only [procFields, if_neg hc]] at h
            nomatch h
      | cons c0 cs =>
          by_cases hf : f = ""
          · by_cases hfill : fill = true
            · rw [show procFields fill (f :: fs) (c0 :: cs)
                    = (procFields fill fs cs).bind
                        (fun rest => .ok ({ c0 with values := c0.values ++ [Py.none] } :: rest)) from by
                    simp only [procFields, if_pos hf, hfill, if_pos rfl]; rfl] at h
              cases hrec : procFields fill fs cs with
              | error e => rw [hrec] at h; nomatch h
              | ok rest =>
                  rw [hrec] at h
                  have hres : res = { c0 with values := c0.values ++ [Py.none] } :: rest :=
                    (Except.ok.inj h).symm
                  subst hres
                  obtain ⟨hlen, hspec⟩ := ih cs rest hrec
                  refine ⟨by simp [hlen], ?_⟩
                  intro i c hci
                  cases i with
                  | zero =>
                      rw [List.getElem?_cons_zero] at hci
                      cases hci
                      refine ⟨{ c0 with values := c0.values ++ [Py.none] },
                        by rw [List.getElem?_cons_zero], rfl, rfl, ?_, ?_, ?_⟩
                      · intro hnone
                        rw [List.getElem?_cons_zero] at hnone
                        nomatch hnone
                      · intro _
                        rw [hfill, if_pos rfl]
                      · intro f' hf' hne
                        rw [List.getElem?_cons_zero] at hf'
                        exact absurd (hf ▸ (Option.some.inj hf')) (fun hh => hne hh.symm)
                  | succ n =>
                      rw [List.getElem?_cons_succ] at hci
                      obtain ⟨r, hr, h1, h2, h3, h4, h5⟩ := hspec n c hci
                      exact ⟨r, by rw [List.getElem?_cons_succ]; exact hr, h1, h2,
                        by rw [List.getElem?_cons_succ]; exact h3,
                        by rw [List.getElem?_cons_succ]; exact h4,
                        by rw [List.getElem?_cons_succ]; exact h5⟩
            · have hfill' : fill = false := by
                cases fill
                · rfl
                · exact absurd rfl hfill
              rw [show procFields fill (f :: fs) (c0 :: cs)
                    = (procFields fill fs cs).bind (fun rest => .ok (c0 :: rest)) from by
                    simp only [procFields, if_pos hf, if_neg hfill]; rfl] at h
              cases hrec : procFields fill fs cs with
              | error e => rw [hrec] at h; nomatch h
              | ok rest =>
                  rw [hrec] at h
                  have hres : res = c0 :: rest := (Except.ok.inj h).symm
                  subst hres
                  obtain ⟨hlen, hspec⟩ := ih cs rest hrec
                  refine ⟨by simp [hlen], ?_⟩
                  intro i c hci
                  cases i with
                  | zero =>
                      rw [List.getElem?_cons_zero] at hci
                      cases hci
                      refine ⟨c0, by rw [List.getElem?_cons_zero], rfl, rfl, ?_, ?_, ?_⟩
                      · intro hnone
                        rw [List.getElem?_cons_zero] at hnone
                      · intro _
                        rw [hfill', if_neg (by simp)]
                        simp
                      · intro f' hf' hne
                        rw [List.getElem?_cons_zero] at hf'
                        exact absurd (hf ▸ (Option.some.inj hf')) (fun hh => hne hh.symm)
                  | succ n =>
                      rw [List.getElem?_cons_succ] at hci
                      obtain ⟨r, hr, h1, h2, h3, h4, h5⟩ := hspec n c hci
                      exact ⟨r, by rw [List.getElem?_cons_succ]; exact hr, h1, h2,
                        by rw [List.getElem?_cons_succ]; exact h3,
                        by rw [List.getElem?_cons_succ]; exact h4,
                        by rw [List.getElem?_cons_succ]; exact h5⟩
          · rw [show procFields fill (f :: fs) (c0 :: cs)
                  = (c0.cast f).bind (fun v => (procFields fill fs cs).bind
                      (fun rest => .ok ({ c0 with values := c0.values ++ [v] } :: rest))) from by
                  simp only [procFields, if_neg hf]; rfl] at h
            cases hcast : c0.cast f with
            | error e => rw [hcast] at h; nomatch h
            | ok v =>
                rw [hcast] at h
                cases hrec : procFields fill fs cs with
                | error e => rw [hrec] at h; nomatch h
                | ok rest =>
                    rw [hrec] at h
                    have hres : res = { c0 with values := c0.values ++ [v] } :: rest :=
                      (Except.ok.inj h).symm
                    subst hres
                    obtain ⟨hlen, hspec⟩ := ih cs rest hrec
                    refine ⟨by simp [hlen], ?_⟩
                    intro i c hci
                    cases i with
                    | zero =>
                        rw [List.getElem?_cons_zero] at hci
                        cases hci
                        refine ⟨{ c0 with values := c0.values ++ [v] },
                          by rw [List.getElem?_cons_zero], rfl, rfl, ?_, ?_, ?_⟩
                        · intro hnone
                          rw [List.getElem?_cons_zero] at hnone
                          nomatch hnone
                        · intro heq
                          rw [List.getElem?_cons_zero] at heq
                          exact absurd (Option.some.inj heq) hf
                        · intro f' hf' _
                          rw [List.getElem?_cons_zero] at hf'
                          have : f = f' := Option.some.inj hf'
                          subst this
                          exact ⟨v, hcast, rfl⟩
                    | succ n =>
                        rw [List.getElem?_cons_succ] at hci
                        obtain ⟨r, hr, h1, h2, h3, h4, h5⟩ := hspec n c hci
                        exact ⟨r, by rw [List.getElem?_cons_succ]; exact hr, h1, h2,
                          by rw [List.getElem?_cons_succ]; exact h3,
                          by rw [List.getElem?_cons_succ]; exact h4,
                          by rw [List.getElem?_cons_succ]; exact h5⟩

/-! ## Flat members: `to_plain` and `obj_dict` agree up to key order -/

theorem map_pyJoin_empty (dl : String) (content : List (String × Node)) :
    content.map (fun p => (pyJoin dl "" p.1, p.2)) = content := by
  induction content with
  | nil => rfl
  | cons p ps ih =>
      rw [List.map_cons, ih, show pyJoin dl "" p.1 = p.1 from by simp [pyJoin]]

theorem emits_simple_list (pa dl : String) (si : Int) :
    ∀ (l : List (String × Node)), (∀ p ∈ l, ∃ a v, p.2 = Node.simple a v) →
      emits false pa dl si l = l.map (fun p => (p.1, simpleVal p.2)) := by
  intro l
  induction l with
  | nil => intro _; simp only [emits, List.map_nil]
  | cons p rest ih =>
      intro h
      obtain ⟨name, nd⟩ := p
      obtain ⟨a, v, hp⟩ := h (name, nd) (by simp)
      simp only at hp
      subst hp
      simp only [emits, List.map_cons]
      rw [ih (fun q hq => h q (by simp [hq]))]
      rfl

theorem obj_dict_flat (attrs : List (String × Py)) (content : List (String × Node))
    (pa dl : String) (si : Int)
    (h : ∀ p ∈ content, ∃ a v, p.2 = Node.simple a v) :
    obj_dict (.complex attrs content) false pa dl si
      = foldInserts [] ((content.map (fun p => (p.1, simpleVal p.2))).reverse) := by
  rw [obj_dict_eq_foldInserts]
  simp only [emits, map_pyJoin_empty, List.append_nil]
  rw [emits_simple_list pa dl si content.reverse
        (fun p hp => h p (List.mem_reverse.mp hp)), List.map_reverse]
  simp

theorem childFold_flat (pa dl : String) (tr : Bool) :
    ∀ (l : List (String × Node)) (d : List (String × Py)),
      (∀ p ∈ l, ∃ a v, p.2 = Node.simple a v) →
      childFold false pa dl tr d l
        = .ok (foldInserts d (l.map (fun p => (p.1, simpleVal p.2)))) := by
  intro l
  induction l with
  | nil =>
      intro d _
      simp only [childFold, List.map_nil, foldInserts_nil]
  | cons p rest ih =>
      intro d h
      obtain ⟨name, nd⟩ := p
      obtain ⟨a, v, hp⟩ := h (name, nd) (by simp)
      simp only at hp
      subst hp
      simp only [childFold, Bool.false_eq_true, if_false]
      rw [show any_to_plain false pa dl tr (Node.simple a v) = .ok v from by
            simp only [any_to_plain, singular_to_plain]]
      show childFold false pa dl tr (dictInsert d name v) rest = _
      rw [ih (dictInsert d name v) (fun q hq => h q (by simp [hq]))]
      rw [List.map_cons, foldInserts_cons]
      rfl

theorem mem_of_mem_dedupFirst :
    ∀ (seen : List String) (l : List (String × Node)) (p : String × Node),
      p ∈ dedupFirst seen l → p ∈ l := by
  intro seen l
  induction l generalizing seen with
  | nil => intro p hp; simp [dedupFirst] at hp
  | cons q rest ih =>
      intro p hp
      simp only [dedupFirst] at hp
      by_cases hc : seen.contains q.1
      · rw [if_pos hc] at hp
        exact List.mem_cons_of_mem _ (ih seen p hp)
      · rw [if_neg hc] at hp
        rcases List.mem_cons.mp hp with h | h
        · exact h ▸ List.mem_cons_self _ _
        · exact List.mem_cons_of_mem _ (ih (q.1 :: seen) p h)

theorem any_to_plain_flat (pa dl : String) (tr : Bool) (m : Node)
    (h : FlatMember m) :
    any_to_plain false pa dl tr m = .ok (.dict (flatPlain m)) := by
  cases m with
  | simple a v => exact absurd h (by simp [FlatMember])
  | log a lg c => exact absurd h (by simp [FlatMember])
  | plural items => exact absurd h (by simp [FlatMember])
  | complex attrs content =>
      have hflat : ∀ p ∈ content, ∃ a v, p.2 = Node.simple a v := h
      simp only [any_to_plain, singular_to_plain, Bool.false_eq_true, if_false]
      rw [childFold_flat pa dl tr (dedupFirst [] content) []
            (fun p hp => hflat p (mem_of_mem_dedupFirst [] content p hp))]
      rfl

theorem pluralToListOfPlains_flat (pa dl : String) (objs : List Node)
    (h : ∀ m ∈ objs, FlatMember m) :
    pluralToListOfPlains false pa dl false objs
      = .ok (objs.map (fun m => Py.dict (flatPlain m))) := by
  induction objs with
  | nil => simp only [pluralToListOfPlains, List.map_nil]
  | cons m objs ih =>
      simp only [pluralToListOfPlains]
      rw [any_to_plain_flat pa dl false m (h m (by simp)),
          ih (fun m' hm' => h m' (by simp [hm']))]
      rfl

theorem to_plain_flat_plural (pa dl : String) (objs : List Node)
    (h : ∀ m ∈ objs, FlatMember m) :
    to_plain (.plural objs) false pa dl false
      = .ok (.list (objs.map (fun m => Py.dict (flatPlain m)))) := by
  simp only [to_plain, any_to_plain, Bool.false_eq_true, if_false]
  rw [pluralToListOfPlains_flat pa dl objs h]
  rfl

theorem dedupFirst_keys :
    ∀ (seen : List String) (l : List (String × Node)),
      NodupKeys (dedupFirst seen l) ∧
      ∀ k ∈ keysOf (dedupFirst seen l), k ∉ seen := by
  intro seen l
  induction l generalizing seen with
  | nil => exact ⟨by simp [dedupFirst, NodupKeys, keysOf], by simp [dedupFirst, keysOf]⟩
  | cons q rest ih =>
      simp only [dedupFirst]
      by_cases hc : seen.contains q.1
      · rw [if_pos hc]
        exact ih seen
      · rw [if_neg hc]
        obtain ⟨hnd, hdisj⟩ := ih (q.1 :: seen)
        have hq1 : q.1 ∉ seen := by
          intro hmem
          exact hc (by rw [contains_eq_decide_mem]; simp [hmem])
        constructor
        · unfold NodupKeys
          rw [keysOf_cons, List.nodup_cons]
          refine ⟨?_, hnd⟩
          intro hmem
          exact (hdisj q.1 hmem) (by simp)
        · intro k hk
          rw [keysOf_cons, List.mem_cons] at hk
          rcases hk with h | h
          · exact h ▸ hq1
          · intro hmem
            exact (hdisj k h) (by simp [hmem])

theorem dictGet?_reverse_of_nodup {β : Type} :
    ∀ (d : List (String × β)), NodupKeys d →
      ∀ k, dictGet? d.reverse k = dictGet? d k := by
  intro d
  induction d with
  | nil => intro _ k; rfl
  | cons p rest ih =>
      intro hnd k
      have hp1 : p.1 ∉ keysOf rest := by
        have := hnd
        unfold NodupKeys at this
        rw [keysOf_cons, List.nodup_cons] at this
        exact this.1
      have htl : NodupKeys rest := by
        have := hnd
        unfold NodupKeys at this
        rw [keysOf_cons, List.nodup_cons] at this
        exact this.2
      rw [List.reverse_cons, dictGet?_append, ih htl k,
          show p = (p.1, p.2) from rfl]
      simp only [dictGet?_cons, dictGet?_nil]
      by_cases h : p.1 = k
      · subst h
        rw [dictGet?_eq_none_of_not_mem hp1]
        simp
      · rw [if_neg h, if_neg h, Option.or_none]

theorem dictGet?_map_dedupFirst :
    ∀ (seen : List String) (l : List (String × Node)) (k : String), k ∉ seen →
      dictGet? ((dedupFirst seen l).map (fun p => (p.1, simpleVal p.2))) k
        = dictGet? (l.map (fun p => (p.1, simpleVal p.2))) k := by
  intro seen l
  induction l generalizing seen with
  | nil => intro k _; rfl
  | cons q rest ih =>
      intro k hk
      simp only [dedupFirst]
      by_cases hc : seen.contains q.1
      · rw [if_pos hc, List.map_cons, dictGet?_cons]
        have hq1k : ¬ q.1 = k := by
          intro hh
          have : q.1 ∈ seen := by
            rw [contains_eq_decide_mem] at hc
            exact of_decide_eq_true hc
          exact hk (hh ▸ this)
        rw [if_neg hq1k]
        exact ih seen k hk
      · rw [if_neg hc, List.map_cons, List.map_cons, dictGet?_cons, dictGet?_cons]
        by_cases h : q.1 = k
        · rw [if_pos h, if_pos h]
        · rw [if_neg h, if_neg h]
          refine ih (q.1 :: seen) k ?_
          rw [List.mem_cons, not_or]
          exact ⟨fun hh => h hh.symm, hk⟩

theorem keysOf_map_valOf (l : List (String × Node)) :
    keysOf (l.map (fun p => (p.1, simpleVal p.2))) = keysOf l := by
  induction l with
  | nil => rfl
  | cons p rest ih => rw [List.map_cons, keysOf_cons, keysOf_cons, ih]

theorem flat_member_lookup (attrs : List (String × Py))
    (content : List (String × Node)) (pa dl : String) (si : Int) (k : String)
    (h : ∀ p ∈ content, ∃ a v, p.2 = Node.simple a v) :
    dictGet? (flatPlain (.complex attrs content)) k
      = dictGet? (obj_dict (.complex attrs content) false pa dl si) k := by
  rw [obj_dict_flat attrs content pa dl si h]
  show dictGet? (foldInserts [] ((dedupFirst [] content).map (fun p => (p.1, simpleVal p.2)))) k = _
  rw [dictGet?_foldInserts, dictGet?_foldInserts, List.reverse_reverse,
      dictGet?_nil, Option.or_none, Option.or_none]
  rw [dictGet?_reverse_of_nodup _ (by
        unfold NodupKeys
        rw [keysOf_map_valOf]
        exact (dedupFirst_keys [] content).1) k]
  exact dictGet?_map_dedupFirst [] content k (by simp)

theorem mem_insKeys (k : String) :
    ∀ (ns ks : List String), k ∈ insKeys ks ns ↔ k ∈ ks ∨ k ∈ ns := by
  intro ns
  induction ns with
  | nil => intro ks; simp [insKeys_nil]
  | cons n ns ih =>
      intro ks
      rw [insKeys_cons]
      by_cases hc : ks.contains n
      · rw [if_pos hc, ih ks]
        have hn : n ∈ ks := by
          rw [contains_eq_decide_mem] at hc
          exact of_decide_eq_true hc
        constructor
        · rintro (h | h)
          · exact Or.inl h
          · exact Or.inr (by simp [h])
        · rintro (h | h)
          · exact Or.inl h
          · rcases List.mem_cons.mp h with h | h
            · exact Or.inl (h ▸ hn)
            · exact Or.inr h
      · rw [if_neg hc, ih (ks ++ [n])]
        constructor
        · rintro (h | h)
          · rcases List.mem_append.mp h with h | h
            · exact Or.inl h
            · exact Or.inr (List.mem_cons.mpr (Or.inl (List.mem_singleton.mp h)))
          · exact Or.inr (by simp [h])
        · rintro (h | h)
          · exact Or.inl (by simp [h])
          · rcases List.mem_cons.mp h with h | h
            · exact Or.inl (by simp [h])
            · exact Or.inr h

theorem mem_firstSeen (k : String) (kss : List (List String)) :
    k ∈ firstSeen kss ↔ ∃ ks ∈ kss, k ∈ ks := by
  unfold firstSeen
  suffices H : ∀ acc, k ∈ kss.foldl (fun ks ns => insKeys ks ns) acc ↔
      k ∈ acc ∨ ∃ ks ∈ kss, k ∈ ks by
    rw [H []]
    simp
  induction kss with
  | nil => intro acc; simp
  | cons ns kss ih =>
      intro acc
      rw [List.foldl_cons, ih (insKeys acc ns), mem_insKeys]
      constructor
      · rintro ((h | h) | h)
        · exact Or.inl h
        · exact Or.inr ⟨ns, by simp, h⟩
        · obtain ⟨ks, hks, hk⟩ := h
          exact Or.inr ⟨ks, by simp [hks], hk⟩
      · rintro (h | h)
        · exact Or.inl (Or.inl h)
        · obtain ⟨ks, hks, hk⟩ := h
          rcases List.mem_cons.mp hks with h | h
          · exact Or.inl (Or.inr (h ▸ hk))
          · exact Or.inr ⟨ks, h, hk⟩

theorem pivotPlain_eq (frames : List (List (String × Py))) :
    pivotPlain frames = (firstSeen (frames.map keysOf)).map
      (fun k => (k, frames.map (fun fr => (dictGet? fr k).getD Py.none))) := by
  unfold pivotPlain firstSeen
  show List.map _ (frames.foldl
      (fun ks kvs => kvs.foldl
        (fun ks p => if ks.contains p.1 then ks else ks ++ [p.1]) ks) []) = _
  rw [List.foldl_map]
  congr 1
  congr 1
  funext ks kvs
  unfold insKeys keysOf
  rw [List.foldl_map]

theorem toString_intZero : toString (0 : Int) = "0" := rfl

theorem flat_member_lookup_any (m : Node) (h : FlatMember m) (pa dl : String)
    (si : Int) (k : String) :
    dictGet? (flatPlain m) k = dictGet? (obj_dict m false pa dl si) k := by
  cases m with
  | simple a v => exact absurd h (by simp [FlatMember])
  | log a lg c => exact absurd h (by simp [FlatMember])
  | plural items => exact absurd h (by simp [FlatMember])
  | complex attrs content => exact flat_member_lookup attrs content pa dl si k h

/-! ## The claims -/

/-- C1: for every plural collection, `plural_dict` with `fill_missing`
enabled returns a frame whose key list is the first-seen union of the
members' flattened keys, and every key's column has length exactly the
member count, holding member `i`'s value at position `i` and an explicit
`None` for members lacking the key. -/
theorem plural_dict_fill_frame_spec (objs : List Node) (ia : Bool) (pa dl : String)
    (si : Int) :
    keysOf (plural_dict objs ia true pa dl si)
      = firstSeen ((objs.map (fun o => obj_dict o ia pa dl si)).map keysOf) ∧
    ∀ p ∈ plural_dict objs ia true pa dl si,
      p.2.length = objs.length ∧
      p.2 = (objs.map (fun o => obj_dict o ia pa dl si)).map
              (fun fw => (dictGet? fw p.1).getD Py.none) := by
  rw [plural_dict_fill]
  constructor
  · rw [keysOf_mapform]
  · intro p hp
    rw [List.mem_map] at hp
    obtain ⟨k, _, rfl⟩ := hp
    exact ⟨by simp, rfl⟩

/-- Witness for C1 on the spec's own example: members with keys `{a,b}`
and `{a,c}`; key `b`'s column is `[value, None]`. -/
theorem plural_dict_fill_frame_spec_witness :
    ([Py.str "b0", Py.none] : List Py).length = ([flatMemberAB, flatMemberAC] : List Node).length ∧
    ([Py.str "b0", Py.none] : List Py)
      = ([flatMemberAB, flatMemberAC].map (fun o => obj_dict o false "" "." 0)).map
          (fun fw => (dictGet? fw "b").getD Py.none) :=
  (plural_dict_fill_frame_spec [flatMemberAB, flatMemberAC] false "" "." 0).2
    ("b", [Py.str "b0", Py.none])
    (by
      rw [show plural_dict [flatMemberAB, flatMemberAC] false true "" "." 0
            = [("b", [Py.str "b0", Py.none]), ("a", [Py.str "a0", Py.str "a1"]),
               ("c", [Py.none, Py.str "c1"])] from by
            simp [plural_dict, obj_dict, obj_dict_go, flatMemberAB, flatMemberAC,
              enumFrom, dictInsert, containsKey, pyJoin, foldInserts, attrPairs,
              fillLoop, setRow, dictSetAt, listSet, dictGet?]]
      simp)

/-- C2 counterexample: a log whose curve declares the type name `bogus`,
absent from `LOG_PRIM_TYPES`, makes `logdata_dict` fail with a `KeyError`
instead of decoding the curve as text. -/
theorem logdata_dict_bogus_type_fails :
    logdata_dict badTypeLog true = .error (.keyError "bogus")
      ∧ logdata_dict badTypeLog false = .error (.keyError "bogus") :=
  ⟨rfl, rfl⟩

/-- C2 (amended): only the literal type name `unknown` is decoded as text;
a `typeLogData` outside the fixed table makes `logdata_dict` raise a
`KeyError` naming the first unrecognized type, for either value of
`fill_missing`. -/
theorem logdata_dict_unrecognized_type (lg : Log) (fm : Bool) (c : CurveInfo)
    (hfind : lg.logCurveInfo.find?
        (fun c => (LOG_PRIM_TYPES c.typeLogData).isNone) = some c) :
    logdata_dict lg fm = .error (.keyError c.typeLogData) := by
  have h := castMap_loop_error lg.logCurveInfo c hfind []
  simp only [logdata_dict, buildCastMap]
  rw [h]
  rfl

/-- Witness for C2's amended claim at the concrete bad-type log. -/
theorem logdata_dict_unrecognized_type_witness :
    logdata_dict badTypeLog false = .error (.keyError "bogus") :=
  logdata_dict_unrecognized_type badTypeLog false ⟨"A", "bogus"⟩ rfl

/-- C3 counterexample: for a member with a nested structured child,
pivoting the plain mappings produced by `to_plain` yields key `x` with a
nested dict, while `plural_dict` yields the flattened key `x.y`; the two
frames differ even up to key order. -/
theorem to_plain_pivot_mismatch_nested :
    to_plain (.plural [nestedMember]) false "" "." false
        = .ok (.list [.dict [("x", .dict [("y", .str "v")])]])
      ∧ ¬ (∀ k, dictGet? (pivotPlain [[("x", Py.dict [("y", Py.str "v")])]]) k
             = dictGet? (plural_dict [nestedMember] false true "" "." 0) k) := by
  constructor
  · simp [to_plain, any_to_plain, singular_to_plain, childFold, pluralToListOfPlains,
      nestedMember, dedupFirst, dictInsert, containsKey, attrsOf?]
    rfl
  · intro hall
    have h := hall "x.y"
    rw [show plural_dict [nestedMember] false true "" "." 0 = [("x.y", [Py.str "v"])] from by
          simp [plural_dict, obj_dict, obj_dict_go, nestedMember, enumFrom, dictInsert,
            containsKey, pyJoin, foldInserts, attrPairs, fillLoop, setRow, dictSetAt,
            listSet]] at h
    rw [show dictGet? (pivotPlain [[("x", Py.dict [("y", Py.str "v")])]]) "x.y"
          = Option.none from rfl] at h
    rw [show dictGet? [("x.y", [Py.str "v"])] "x.y" = some [Py.str "v"] from rfl] at h
    nomatch h

/-- C3 (amended): for collections whose members are flat records (each
child a simple leaf) and with attribute inclusion disabled, converting
with `to_plain` (no transpose) and pivoting those same mappings yields a
frame that agrees, up to key order, with `plural_dict` on the original
collection with `fill_missing` enabled. -/
theorem to_plain_pivot_eq_plural_dict_flat (objs : List Node) (pa dl : String)
    (si : Int) (hflat : ∀ m ∈ objs, FlatMember m) :
    to_plain (.plural objs) false pa dl false
        = .ok (.list (objs.map (fun m => Py.dict (flatPlain m)))) ∧
    ∀ k, dictGet? (pivotPlain (objs.map flatPlain)) k
        = dictGet? (plural_dict objs false true pa dl si) k := by
  refine ⟨to_plain_flat_plural pa dl objs hflat, ?_⟩
  intro k
  rw [pivotPlain_eq, plural_dict_fill, dictGet?_mapform, dictGet?_mapform]
  have hcol : (objs.map flatPlain).map (fun fr => (dictGet? fr k).getD Py.none)
      = (objs.map (fun o => obj_dict o false pa dl si)).map
          (fun fr => (dictGet? fr k).getD Py.none) := by
    rw [List.map_map, List.map_map]
    refine List.map_congr_left ?_
    intro m hm
    simp only [Function.comp]
    rw [flat_member_lookup_any m (hflat m hm) pa dl si k]
  have hmem : k ∈ firstSeen (((objs.map flatPlain)).map keysOf)
      ↔ k ∈ firstSeen ((objs.map (fun o => obj_dict o false pa dl si)).map keysOf) := by
    rw [mem_firstSeen, mem_firstSeen]
    constructor
    · rintro ⟨ks, hks, hk⟩
      rw [List.mem_map] at hks
      obtain ⟨fr, hfr, rfl⟩ := hks
      rw [List.mem_map] at hfr
      obtain ⟨m, hm, rfl⟩ := hfr
      refine ⟨keysOf (obj_dict m false pa dl si), ?_, ?_⟩
      · exact List.mem_map_of_mem _ (List.mem_map_of_mem _ hm)
      · rw [mem_keysOf_iff_isSome, ← flat_member_lookup_any m (hflat m hm) pa dl si k,
            ← mem_keysOf_iff_isSome]
        exact hk
    · rintro ⟨ks, hks, hk⟩
      rw [List.mem_map] at hks
      obtain ⟨fr, hfr, rfl⟩ := hks
      rw [List.mem_map] at hfr
      obtain ⟨m, hm, rfl⟩ := hfr
      refine ⟨keysOf (flatPlain m), ?_, ?_⟩
      · exact List.mem_map_of_mem _ (List.mem_map_of_mem _ hm)
      · rw [mem_keysOf_iff_isSome, flat_member_lookup_any m (hflat m hm) pa dl si k,
            ← mem_keysOf_iff_isSome]
        exact hk
  by_cases h : k ∈ firstSeen (((objs.map flatPlain)).map keysOf)
  · rw [if_pos h, if_pos (hmem.mp h), hcol]
  · rw [if_neg h, if_neg (fun hh => h (hmem.mpr hh))]

/-- Witness for C3's amended claim on a one-member flat collection. -/
theorem to_plain_pivot_eq_plural_dict_flat_witness :
    to_plain (.plural [flatMemberAB]) false "" "." false
        = .ok (.list ([flatMemberAB].map (fun m => Py.dict (flatPlain m)))) ∧
    ∀ k, dictGet? (pivotPlain ([flatMemberAB].map flatPlain)) k
        = dictGet? (plural_dict [flatMemberAB] false true "" "." 0) k :=
  to_plain_pivot_eq_plural_dict_flat [flatMemberAB] "" "." 0
    (by
      intro m hm
      rw [List.mem_singleton] at hm
      subst hm
      show ∀ p ∈ [("a", Node.simple [] (Py.str "a0")), ("b", Node.simple [] (Py.str "b0"))],
        ∃ a v, p.2 = Node.simple a v
      intro p hp
      rcases List.mem_cons.mp hp with h | h
      · exact ⟨[], .str "a0", by rw [h]⟩
      · rw [List.mem_singleton] at h
        exact ⟨[], .str "b0", by rw [h]⟩)

/-- C4: per row and positional field, `logdata_dict`'s row loop appends
the cast of a non-empty field, appends `None` for an empty field exactly
when `fill_missing`, and appends nothing at positions beyond the row; on
the spec's example log the two modes give the stated frames
(`100.0 = 1000/10`, `50.2 = 502/10` as exact rationals). -/
theorem logdata_field_append_spec :
    (∀ (fill : Bool) (fields : List String) (cols res : List ColAcc),
      procFields fill fields cols = .ok res →
      res.length = cols.length ∧
      ∀ (i : Nat) (c : ColAcc), cols[i]? = some c →
        ∃ r : ColAcc, res[i]? = some r ∧ r.mnem = c.mnem ∧ r.cast = c.cast ∧
          (fields[i]? = Option.none → r.values = c.values) ∧
          (fields[i]? = some "" →
             r.values = c.values ++ (if fill then [Py.none] else [])) ∧
          (∀ f, fields[i]? = some f → f ≠ "" →
             ∃ v, c.cast f = .ok v ∧ r.values = c.values ++ [v])) ∧
    logdata_dict exLog true
      = .ok [("DEPT", [.float (mkRat 1000 10), .float (mkRat 1001 10)]),
             ("GR", [.float (mkRat 502 10), .none])] ∧
    logdata_dict exLog false
      = .ok [("DEPT", [.float (mkRat 1000 10), .float (mkRat 1001 10)]),
             ("GR", [.float (mkRat 502 10)])] :=
  ⟨fun fill => procFields_spec fill, rfl, rfl⟩

/-- Witness for C4's general part: one non-empty and one empty field. -/
theorem logdata_field_append_spec_witness :
    ([(ColAcc.mk "A" pyInt [Py.int 7]), (ColAcc.mk "B" pyInt [Py.none])] : List ColAcc).length
        = ([(ColAcc.mk "A" pyInt []), (ColAcc.mk "B" pyInt [])] : List ColAcc).length ∧
    ∀ (i : Nat) (c : ColAcc),
      ([(ColAcc.mk "A" pyInt []), (ColAcc.mk "B" pyInt [])] : List ColAcc)[i]? = some c →
      ∃ r : ColAcc,
        ([(ColAcc.mk "A" pyInt [Py.int 7]), (ColAcc.mk "B" pyInt [Py.none])] : List ColAcc)[i]? = some r ∧
        r.mnem = c.mnem ∧ r.cast = c.cast ∧
        ((["7", ""] : List String)[i]? = Option.none → r.values = c.values) ∧
        ((["7", ""] : List String)[i]? = some "" →
           r.values = c.values ++ (if true then [Py.none] else [])) ∧
        (∀ f, (["7", ""] : List String)[i]? = some f → f ≠ "" →
           ∃ v, c.cast f = .ok v ∧ r.values = c.values ++ [v]) :=
  logdata_field_append_spec.1 true ["7", ""]
    [(ColAcc.mk "A" pyInt []), (ColAcc.mk "B" pyInt [])]
    [(ColAcc.mk "A" pyInt [Py.int 7]), (ColAcc.mk "B" pyInt [Py.none])] rfl

/-- C5 counterexample: a malformed double field raises a `ValueError`
whose payload carries the offending text but does not mention the
column's mnemonic `GR`. -/
theorem logdata_cast_error_lacks_mnemonic :
    logdata_dict badFieldLog true
        = .error (.valueError "could not convert string to float: 'abc'")
      ∧ strOccurs "could not convert string to float: 'abc'" "GR" = false :=
  ⟨rfl, rfl⟩

/-- C5 (amended): a malformed double field makes `logdata_dict` raise a
`ValueError` built from the offending raw text alone; the mnemonic (here
arbitrary) does not appear in the raised error. -/
theorem logdata_cast_error_message (m f : String) (dd : List String) (fm : Bool)
    (hm : pySplit m "," = [m]) (hf : pySplit f "," = [f]) (hfne : f ≠ "")
    (hbad : parseDecimal? f = Option.none) :
    logdata_dict ⟨[⟨m, "double"⟩], Option.none, [⟨m, f :: dd⟩]⟩ fm
      = .error (.valueError ("could not convert string to float: '" ++ f ++ "'")) := by
  have h1 : buildCastMap [⟨m, "double"⟩] = .ok [(m, pyFloat)] := rfl
  show (do
      let castMap ← buildCastMap [⟨m, "double"⟩]
      let cols ← (pySplit m ",").mapM
          (fun mn => match dictGet? castMap mn with
                     | some fn => Except.ok (ColAcc.mk mn fn [])
                     | Option.none => Except.error (PyError.keyError mn))
      let cols ← (f :: dd).foldlM
          (fun cs row => procFields fm (pySplit row ",") cs) cols
      Except.ok (foldInserts [] (cols.map (fun c : ColAcc => (c.mnem, c.values))))) = _
  rw [h1]
  show (do
      let cols ← (pySplit m ",").mapM
          (fun mn => match dictGet? [(m, pyFloat)] mn with
                     | some fn => Except.ok (ColAcc.mk mn fn [])
                     | Option.none => Except.error (PyError.keyError mn))
      let cols ← (f :: dd).foldlM
          (fun cs row => procFields fm (pySplit row ",") cs) cols
      Except.ok (foldInserts [] (cols.map (fun c : ColAcc => (c.mnem, c.values))))) = _
  rw [hm]
  simp only [List.mapM_cons, List.mapM_nil]
  rw [show dictGet? [(m, pyFloat)] m = some pyFloat from by
        rw [dictGet?_cons, if_pos rfl]]
  show (do
      let cols ← (f :: dd).foldlM
          (fun cs row => procFields fm (pySplit row ",") cs) [ColAcc.mk m pyFloat []]
      Except.ok (foldInserts [] (cols.map (fun c : ColAcc => (c.mnem, c.values))))) = _
  rw [List.foldlM_cons, hf]
  rw [show procFields fm [f] [ColAcc.mk m pyFloat []]
        = .error (.valueError ("could not convert string to float: '" ++ f ++ "'")) from by
        simp only [procFields, if_neg hfne]
        rw [show pyFloat f
              = .error (.valueError ("could not convert string to float: '" ++ f ++ "'")) from by
              simp only [pyFloat, hbad]]
        rfl]
  rfl

/-- Witness for C5's amended claim: mnemonic `GR`, field `abc`. -/
theorem logdata_cast_error_message_witness :
    logdata_dict ⟨[⟨"GR", "double"⟩], Option.none, [⟨"GR", ["abc"]⟩]⟩ false
      = .error (.valueError ("could not convert string to float: '" ++ "abc" ++ "'")) :=
  logdata_cast_error_message "GR" "abc" [] false rfl rfl (by decide) rfl

/-- C6 counterexample: with the plural child `station` occurring twice in
document order around a sibling, `obj_dict`'s frame differs (in key
order) from the frame of the node with the collection occurring once at
its first position. -/
theorem obj_dict_dup_plural_order_differs :
    obj_dict dupNode false "" "." 0 ≠ obj_dict dupNodeSingleFirst false "" "." 0 := by
  rw [show obj_dict dupNode false "" "." 0
        = [("station[0]", Py.str "v"), ("other", Py.str "w")] from by
        simp [obj_dict, obj_dict_go, dupNode, memberPlural, enumFrom, dictInsert,
          containsKey, pyJoin, foldInserts, attrPairs, toString_intZero],
      show obj_dict dupNodeSingleFirst false "" "." 0
        = [("other", Py.str "w"), ("station[0]", Py.str "v")] from by
        simp [obj_dict, obj_dict_go, dupNodeSingleFirst, memberPlural, enumFrom,
          dictInsert, containsKey, pyJoin, foldInserts, attrPairs, toString_intZero]]
  intro h
  injection h with h1 _
  injection h1 with ha _
  exact absurd ha (by decide)

/-- C6 (amended): re-expanding a repeated occurrence of the same child
re-writes the same path/value assignments, so when the keys it emits are
disjoint from those of the siblings between the two occurrences, the flat
mapping (keys, values and key order) equals that of the node carrying the
occurrence once, at the position of the last occurrence. -/
theorem obj_dict_dup_plural_collapse (ia : Bool) (pa dl : String) (si : Int)
    (attrs : List (String × Py)) (A B C : List (String × Node)) (n : String) (nd : Node)
    (hdisj : ∀ k, k ∈ keysOf (emits ia pa dl si [(pyJoin dl "" n, nd)]) →
        k ∉ keysOf (emits ia pa dl si ((B.map (fun p => (pyJoin dl "" p.1, p.2))).reverse))) :
    obj_dict (.complex attrs (A ++ [(n, nd)] ++ B ++ [(n, nd)] ++ C)) ia pa dl si
      = obj_dict (.complex attrs (A ++ B ++ [(n, nd)] ++ C)) ia pa dl si := by
  rw [obj_dict_eq_foldInserts, obj_dict_eq_foldInserts]
  simp only [emits, List.append_nil, List.map_append, List.map_cons, List.map_nil,
    List.reverse_append, List.reverse_cons, List.reverse_nil, List.nil_append,
    List.append_assoc, emits_append, foldInserts_append]
  congr 1
  exact foldInserts_rerun
    (foldInserts (foldInserts [] (if ia then attrPairs pa dl "" attrs else []))
      (emits ia pa dl si (C.map (fun p => (pyJoin dl "" p.1, p.2))).reverse))
    (emits ia pa dl si [(pyJoin dl "" n, nd)])
    (emits ia pa dl si ((B.map (fun p => (pyJoin dl "" p.1, p.2))).reverse))
    (NodupKeys_foldInserts _ (NodupKeys_foldInserts _ (by simp [NodupKeys, keysOf])))
    hdisj

/-- Witness for C6's amended claim: `station` duplicated around `other`,
whose emitted keys are disjoint. -/
theorem obj_dict_dup_plural_collapse_witness :
    obj_dict (.complex [] ([] ++ [("station", memberPlural)]
        ++ [("other", Node.simple [] (Py.str "w"))] ++ [("station", memberPlural)] ++ []))
        false "" "." 0
      = obj_dict (.complex [] ([] ++ [("other", Node.simple [] (Py.str "w"))]
          ++ [("station", memberPlural)] ++ [])) false "" "." 0 :=
  obj_dict_dup_plural_collapse false "" "." 0 [] []
    [("other", Node.simple [] (Py.str "w"))] [] "station" memberPlural
    (by
      intro k hk
      rw [show keysOf (emits false "" "." 0 [(pyJoin "." "" "station", memberPlural)])
            = ["station[0]"] from by
            simp [emits, memberPlural, enumFrom, pyJoin, attrPairs, keysOf,
              toString_intZero]] at hk
      rw [show keysOf (emits false "" "." 0
              (([("other", Node.simple [] (Py.str "w"))].map
                  (fun p => (pyJoin "." "" p.1, p.2))).reverse))
            = ["other"] from by
            simp [emits, pyJoin, attrPairs, keysOf]]
      rw [List.mem_singleton] at hk
      subst hk
      decide)

/-- C7: with attribute inclusion enabled and prefix `@`, an attribute
`uid` on a child element `well` is emitted under the key `well.@uid`,
distinct from the key `well` holding the child's own leaf value. -/
theorem obj_dict_child_attr_key (uval wv : Py) (si : Int) :
    obj_dict (.complex [] [("well", .simple [("uid", uval)] wv)]) true "@" "." si
        = [("well.@uid", uval), ("well", wv)]
      ∧ ("well.@uid" : String) ≠ "well" := by
  constructor
  · simp [obj_dict, obj_dict_go, enumFrom, dictInsert, containsKey, pyJoin,
      foldInserts, attrPairs]
  · decide

/-- C8: `logdata_dict` reads only the first `logData` section; any
further sections are ignored. -/
theorem logdata_dict_first_section_only (ci : List CurveInfo) (dd : Option String)
    (ld0 : LogData) (rest : List LogData) (fm : Bool) :
    logdata_dict ⟨ci, dd, ld0 :: rest⟩ fm = logdata_dict ⟨ci, dd, [ld0]⟩ fm := rfl

/-- C9: `to_plain` delegates an `obj_log` to `logdata_dict` with its
default `fill_missing = True`; the options `include_attr`, `prefix_attr`,
`delimiter` and `transpose` do not influence the result. -/
theorem to_plain_log_delegates (attrs : List (String × Py)) (lg : Log)
    (content : List (String × Node)) (ia : Bool) (pa dl : String) (tr : Bool) :
    to_plain (.log attrs lg content) ia pa dl tr
      = (logdata_dict lg true).map
          (fun fr => .dict (fr.map (fun p => (p.1, Py.list p.2)))) := by
  simp only [to_plain, any_to_plain]

/-- C10: a row with fewer fields than declared mnemonics does not fail:
the columns beyond the row's fields are returned untouched, so even with
`fill_missing` they receive no entry — on the concrete short-row log the
trailing column `GR` ends up shorter than the row count. -/
theorem logdata_short_row_spec :
    (∀ (fill : Bool) (fields : List String) (cols : List ColAcc),
        fields.length ≤ cols.length →
        procFields fill fields cols
          = (procFields fill fields (cols.take fields.length)).map
              (fun cs => cs ++ cols.drop fields.length)) ∧
    logdata_dict shortRowLog true
      = .ok [("DEPT", [.float (mkRat 1000 10), .float (mkRat 1001 10)]),
             ("GR", [.float (mkRat 502 10)])] :=
  ⟨fun fill fields cols h => procFields_short_aux fill fields cols h, rfl⟩

/-- Witness for C10's general part: one field against two columns. -/
theorem logdata_short_row_spec_witness :
    (["1"] : List String).length
        ≤ ([ColAcc.mk "A" pyStr [], ColAcc.mk "B" pyStr []] : List ColAcc).length ∧
    procFields true ["1"] [ColAcc.mk "A" pyStr [], ColAcc.mk "B" pyStr []]
      = (procFields true ["1"]
          (([ColAcc.mk "A" pyStr [], ColAcc.mk "B" pyStr []] : List ColAcc).take 1)).map
          (fun cs => cs ++ ([ColAcc.mk "A" pyStr [], ColAcc.mk "B" pyStr []] : List ColAcc).drop 1) :=
  ⟨by decide,
   logdata_short_row_spec.1 true ["1"] [ColAcc.mk "A" pyStr [], ColAcc.mk "B" pyStr []]
     (by decide)⟩

end Komle
